import Mathlib

/-!
Verification of the sandbox CLI (`sandbox.py`): a shallow embedding of its
pure helpers (`safe_name`, `find_available_ports`, `git_worktree_list`,
`merge_claude_settings`), of the lifecycle commands (`start`, `rm`, `purge`)
as functions over an explicit environment of external-probe oracles, and of
`merge_claude_settings` over an explicit object heap (for the mutation /
aliasing claims).  External systems (git, docker, the filesystem, sockets)
are modelled as oracles in an environment record, exactly at the subprocess
boundary the program itself uses.
-/

namespace SandboxCLI

/-! ## `safe_name`

Python: `return branch.replace("/", "-")`.  For a single-character pattern
and replacement, `str.replace` is exactly a character-wise map. -/

/-- `safe_name`: convert branch name to safe sandbox name (replace `/` with `-`). -/
def safe_name (branch : String) : String :=
  ⟨branch.data.map (fun c => if c = '/' then '-' else c)⟩

/-! ## `find_available_ports`

Python scans `range(start, end)` ascending; at the top of each iteration it
breaks when `len(ports) >= count`; a successful exclusive bind appends the
port, an `OSError` skips it.  The bind probe is modelled by the oracle
`free : Nat → Bool`. -/

/-- The scan loop of `find_available_ports`: `acc` is the `ports` list built
so far, the list argument is the remaining portion of `range(start, end)`. -/
def port_scan (free : Nat → Bool) (count : Nat) : List Nat → List Nat → List Nat
  | [], acc => acc
  | p :: rest, acc =>
    if count ≤ acc.length then acc
    else if free p then port_scan free count rest (acc ++ [p])
    else port_scan free count rest acc

/-- `find_available_ports`: find `count` available ports in `[start, stop)`,
where availability of a port is the oracle `free` (the bind-and-release
probe succeeding). -/
def find_available_ports (free : Nat → Bool) (count : Nat := 3)
    (start : Nat := 49152) (stop : Nat := 65535) : List Nat :=
  port_scan free count (List.range' start (stop - start)) []

/-! ### Lemmas for the port allocator -/

theorem port_scan_eq (free : Nat → Bool) (count : Nat) :
    ∀ (l acc : List Nat), acc.length ≤ count →
      port_scan free count l acc = acc ++ (l.filter free).take (count - acc.length) := by
  intro l
  induction l with
  | nil => intro acc _; simp [port_scan]
  | cons p rest ih =>
    intro acc hacc
    by_cases hfull : count ≤ acc.length
    · have hlen : acc.length = count := Nat.le_antisymm hacc hfull
      simp [port_scan, hfull, hlen]
    · have hlt : acc.length < count := Nat.lt_of_not_le hfull
      by_cases hfree : free p
      · have h1 : (acc ++ [p]).length ≤ count := by
          simpa [List.length_append] using Nat.succ_le_of_lt hlt
        have := ih (acc ++ [p]) h1
        simp only [port_scan, hfull, if_false, hfree, if_true, this]
        have hsub : count - acc.length = (count - (acc.length + 1)) + 1 :=
          (Nat.succ_pred_eq_of_pos (Nat.sub_pos_of_lt hlt)).symm.trans
            (by simp [Nat.sub_sub])
        simp [List.filter_cons, hfree, hsub, List.take_succ_cons, List.append_assoc]
      · have := ih acc hacc
        simp only [port_scan, hfull, if_false, hfree, Bool.false_eq_true, this]
        simp [List.filter_cons, hfree]

/-- The allocator is exactly: the first `count` free ports of the ascending
range scan. -/
theorem find_available_ports_eq (free : Nat → Bool) (count start stop : Nat) :
    find_available_ports free count start stop
      = ((List.range' start (stop - start)).filter free).take count := by
  have := port_scan_eq free count (List.range' start (stop - start)) [] (Nat.zero_le _)
  simpa [find_available_ports] using this

/-- C9: `safe_name` is idempotent — one pass removes every `/`, so a second
pass finds nothing to replace: `safe_name (safe_name x) = safe_name x`, and
the output of one application contains no `/` character. -/
theorem safe_name_idempotent (x : String) :
    safe_name (safe_name x) = safe_name x ∧ '/' ∉ (safe_name x).data := by
  constructor
  · simp only [safe_name, List.map_map]
    congr 1
    apply List.map_congr_left
    intro c _
    by_cases h : c = '/' <;> simp [h, Function.comp]
  · simp only [safe_name]
    intro hmem
    rcases List.mem_map.mp hmem with ⟨c, _, hc⟩
    by_cases h : c = '/' <;> simp [h] at hc

/-- C6: the port allocator, for every `count`, range and bind-probe oracle,
returns distinct ports inside `[start, stop)`; it returns the first `count`
free ports of the ascending scan; it returns exactly `count` ports whenever
at least `count` ports of the range are free, and fewer than `count` only
when every free port of the range has been taken (the range is exhausted). -/
theorem find_available_ports_spec (free : Nat → Bool) (count start stop : Nat) :
    (∀ p ∈ find_available_ports free count start stop, start ≤ p ∧ p < stop) ∧
    (find_available_ports free count start stop).Nodup ∧
    find_available_ports free count start stop
      = ((List.range' start (stop - start)).filter free).take count ∧
    (count ≤ ((List.range' start (stop - start)).filter free).length →
      (find_available_ports free count start stop).length = count) ∧
    ((find_available_ports free count start stop).length < count →
      find_available_ports free count start stop
        = (List.range' start (stop - start)).filter free) := by
  have heq := find_available_ports_eq free count start stop
  refine ⟨?_, ?_, heq, ?_, ?_⟩
  · intro p hp
    rw [heq] at hp
    have hp2 : p ∈ List.range' start (stop - start) :=
      List.mem_of_mem_filter (List.mem_of_mem_take hp)
    have := List.mem_range'_1.mp hp2
    omega
  · rw [heq]
    exact List.Sublist.nodup (List.take_sublist _ _) (List.Nodup.filter free (List.nodup_range' _ _))
  · intro hge
    rw [heq, List.length_take]
    exact Nat.min_eq_left hge
  · intro hlt
    rw [heq] at hlt ⊢
    rw [List.length_take] at hlt
    have : ((List.range' start (stop - start)).filter free).length < count := by
      omega
    exact List.take_of_length_le (Nat.le_of_lt this)

/-- Witness for C6 at a concrete probe (even ports free) and range: the
range `[10, 20)` holds five free ports, so asking for two yields exactly
the first two of the ascending scan. -/
theorem find_available_ports_spec_witness :
    (find_available_ports (fun p => p % 2 = 0) 2 10 20).length = 2 ∧
    find_available_ports (fun p => p % 2 = 0) 2 10 20 = [10, 12] :=
  ⟨(find_available_ports_spec (fun p => p % 2 = 0) 2 10 20).2.2.2.1 (by decide),
    by decide⟩

/-! ## `git_worktree_list`

Python: run `git worktree list --porcelain`; on non-zero exit return `[]`;
otherwise fold over `result.stdout.strip().split("\n")`, starting a new
record at each `worktree ` line (appending the previous one if non-empty),
recording `branch `/`HEAD ` lines into the current record, and appending the
final record if non-empty.  We embed the subprocess result as the pair
(returncode, stdout), strings as `List Char`. -/

/-- The whitespace set of Python `str.strip()`. -/
def isPyWs (c : Char) : Bool :=
  c = ' ' || c = '\t' || c = '\n' || c = '\r' || c = Char.ofNat 11 || c = Char.ofNat 12

/-- Python `str.strip()`. -/
def pyStrip (l : List Char) : List Char :=
  ((l.dropWhile isPyWs).reverse.dropWhile isPyWs).reverse

/-- Python `str.split("\n")` (note `"".split("\n") == [""]`). -/
def splitNl : List Char → List (List Char)
  | [] => [[]]
  | c :: rest =>
    match splitNl rest with
    | [] => [[c]]
    | l :: ls => if c = '\n' then [] :: l :: ls else (c :: l) :: ls

/-- One parsed worktree record (the Python `dict` with keys `path`,
`branch`, `head`; a missing key is `none`). -/
structure WTRecord where
  path : Option (List Char)
  branch : Option (List Char)
  head : Option (List Char)
deriving DecidableEq

/-- Truthiness of the Python record dict (`if current:`): non-empty iff some
key was set. -/
def WTRecord.nonEmpty (r : WTRecord) : Bool :=
  r.path.isSome || r.branch.isSome || r.head.isSome

/-- The line-folding loop of `git_worktree_list`; `cur` is the `current`
dict. -/
def parse_worktree_lines : List (List Char) → WTRecord → List WTRecord
  | [], cur => if cur.nonEmpty then [cur] else []
  | line :: rest, cur =>
    if ("worktree ".data).isPrefixOf line then
      (if cur.nonEmpty then [cur] else []) ++
        parse_worktree_lines rest ⟨some (line.drop 9), none, none⟩
    else if ("branch ".data).isPrefixOf line then
      parse_worktree_lines rest ⟨cur.path, some (line.drop 7), cur.head⟩
    else if ("HEAD ".data).isPrefixOf line then
      parse_worktree_lines rest ⟨cur.path, cur.branch, some (line.drop 5)⟩
    else
      parse_worktree_lines rest cur

/-- `git_worktree_list`, as a function of the underlying command's exit code
and standard output. -/
def git_worktree_list (returncode : Int) (stdout : List Char) : List WTRecord :=
  if returncode ≠ 0 then []
  else parse_worktree_lines (splitNl (pyStrip stdout)) ⟨none, none, none⟩

/-! ### A porcelain stream of blocks, rendered to text -/

/-- One well-formed porcelain block: a `worktree <path>` line, then
optionally a `HEAD <sha>` line, then optionally a `branch <ref>` line. -/
structure WTBlock where
  path : List Char
  head : Option (List Char)
  branch : Option (List Char)

/-- The lines of one block. -/
def renderBlock (b : WTBlock) : List (List Char) :=
  ["worktree ".data ++ b.path] ++
    (match b.head with | some h => ["HEAD ".data ++ h] | none => []) ++
    (match b.branch with | some br => ["branch ".data ++ br] | none => [])

/-- The record the parser should produce for a block. -/
def blockRecord (b : WTBlock) : WTRecord :=
  ⟨some b.path, b.branch, b.head⟩

/-- Block lists joined with a single blank separator line, as git prints
them. -/
def joinBlocks : List WTBlock → List (List Char)
  | [] => []
  | [b] => renderBlock b
  | b :: rest => renderBlock b ++ ([] :: joinBlocks rest)

/-- Lines joined with newline characters (the inverse of `split("\n")`). -/
def joinLines : List (List Char) → List Char
  | [] => []
  | [l] => l
  | l :: rest => l ++ '\n' :: joinLines rest

/-- A field value fit for one porcelain line: non-empty, no embedded
newline, and not ending in strip-removable whitespace. -/
def wfField (f : List Char) : Bool :=
  !f.isEmpty && !f.contains '\n' && !isPyWs (f.getLastD ' ')

/-- All fields of a block are well-formed. -/
def wfBlock (b : WTBlock) : Bool :=
  wfField b.path &&
    (match b.head with | some h => wfField h | none => true) &&
    (match b.branch with | some br => wfField br | none => true)

/-! ### Line-classification facts -/

theorem wt_prefix_self (p : List Char) :
    ("worktree ".data).isPrefixOf ("worktree ".data ++ p) = true := by
  cases p <;> rfl

theorem head_prefix_self (h : List Char) :
    ("HEAD ".data).isPrefixOf ("HEAD ".data ++ h) = true := by
  cases h <;> rfl

theorem br_prefix_self (b : List Char) :
    ("branch ".data).isPrefixOf ("branch ".data ++ b) = true := by
  cases b <;> rfl

theorem wt_not_prefix_head (h : List Char) :
    ("worktree ".data).isPrefixOf ("HEAD ".data ++ h) = false := rfl

theorem wt_not_prefix_br (b : List Char) :
    ("worktree ".data).isPrefixOf ("branch ".data ++ b) = false := rfl

theorem br_not_prefix_head (h : List Char) :
    ("branch ".data).isPrefixOf ("HEAD ".data ++ h) = false := rfl

theorem wt_not_prefix_nil : ("worktree ".data).isPrefixOf ([] : List Char) = false := rfl

theorem br_not_prefix_nil : ("branch ".data).isPrefixOf ([] : List Char) = false := rfl

theorem head_not_prefix_nil : ("HEAD ".data).isPrefixOf ([] : List Char) = false := rfl

theorem wt_drop (p : List Char) : ("worktree ".data ++ p).drop 9 = p := by
  simpa using List.drop_left "worktree ".data p

theorem br_drop (b : List Char) : ("branch ".data ++ b).drop 7 = b := by
  simpa using List.drop_left "branch ".data b

theorem head_drop (h : List Char) : ("HEAD ".data ++ h).drop 5 = h := by
  simpa using List.drop_left "HEAD ".data h

/-! ### The parser on rendered blocks -/

/-- Consuming one rendered block emits the pending record and leaves the
block's own record as the new pending state, whatever follows. -/
theorem parse_block (b : WTBlock) (ls : List (List Char)) (cur : WTRecord) :
    parse_worktree_lines (renderBlock b ++ ls) cur
      = (if cur.nonEmpty then [cur] else []) ++ parse_worktree_lines ls (blockRecord b) := by
  cases hh : b.head <;> cases hb : b.branch <;>
    simp [renderBlock, hh, hb, blockRecord, parse_worktree_lines, wt_prefix_self,
      head_prefix_self, br_prefix_self, wt_not_prefix_head, wt_not_prefix_br,
      br_not_prefix_head, wt_drop, br_drop, head_drop]

/-- A blank separator line is skipped, preserving the pending record. -/
theorem parse_blank (ls : List (List Char)) (cur : WTRecord) :
    parse_worktree_lines ([] :: ls) cur = parse_worktree_lines ls cur := by
  simp [parse_worktree_lines, wt_not_prefix_nil, br_not_prefix_nil, head_not_prefix_nil]

/-- The parser on a whole blank-separated stream of blocks: one record per
block, in input order. -/
theorem parse_joinBlocks :
    ∀ (blocks : List WTBlock) (cur : WTRecord),
      parse_worktree_lines (joinBlocks blocks) cur
        = (if cur.nonEmpty then [cur] else []) ++ blocks.map blockRecord := by
  intro blocks
  induction blocks with
  | nil => intro cur; simp [joinBlocks, parse_worktree_lines]
  | cons b rest ih =>
    intro cur
    cases rest with
    | nil =>
      have h1 : joinBlocks [b] = renderBlock b ++ [] := by simp [joinBlocks]
      rw [h1, parse_block]
      simp [parse_worktree_lines, blockRecord, WTRecord.nonEmpty]
    | cons b2 rest2 =>
      have h1 : joinBlocks (b :: b2 :: rest2)
          = renderBlock b ++ ([] :: joinBlocks (b2 :: rest2)) := rfl
      rw [h1, parse_block, parse_blank, ih]
      simp [blockRecord, WTRecord.nonEmpty]

/-! ### `split`/`strip` round-trips over rendered text -/

theorem splitNl_ne_nil : ∀ l : List Char, splitNl l ≠ [] := by
  intro l
  induction l with
  | nil => simp [splitNl]
  | cons c rest ih =>
    simp only [splitNl]
    cases h : splitNl rest with
    | nil => simp
    | cons x xs => by_cases hc : c = '\n' <;> simp [hc]

theorem splitNl_no_nl (l : List Char) (h : '\n' ∉ l) : splitNl l = [l] := by
  induction l with
  | nil => rfl
  | cons c rest ih =>
    have hc : c ≠ '\n' := fun hc => h (hc ▸ List.mem_cons_self c rest)
    have hrest : '\n' ∉ rest := fun hm => h (List.mem_cons_of_mem c hm)
    simp only [splitNl, ih hrest, hc]
    simp

theorem splitNl_append (l t : List Char) (h : '\n' ∉ l) :
    splitNl (l ++ '\n' :: t) = l :: splitNl t := by
  induction l with
  | nil =>
    simp only [List.nil_append, splitNl]
    cases hs : splitNl t with
    | nil => exact absurd hs (splitNl_ne_nil t)
    | cons x xs => simp
  | cons c rest ih =>
    have hc : c ≠ '\n' := fun hc => h (hc ▸ List.mem_cons_self c rest)
    have hrest : '\n' ∉ rest := fun hm => h (List.mem_cons_of_mem c hm)
    have hstep : splitNl (c :: (rest ++ '\n' :: t))
        = match splitNl (rest ++ '\n' :: t) with
          | [] => [[c]]
          | l :: ls => if c = '\n' then [] :: l :: ls else (c :: l) :: ls := rfl
    rw [List.cons_append, hstep, ih hrest]
    simp [hc]

theorem joinLines_cons (l : List Char) (rest : List (List Char)) (h : rest ≠ []) :
    joinLines (l :: rest) = l ++ '\n' :: joinLines rest := by
  cases rest with
  | nil => exact absurd rfl h
  | cons x xs => rfl

theorem splitNl_joinLines :
    ∀ lines : List (List Char), lines ≠ [] → (∀ l ∈ lines, '\n' ∉ l) →
      splitNl (joinLines lines) = lines := by
  intro lines
  induction lines with
  | nil => intro h; exact absurd rfl h
  | cons l rest ih =>
    intro _ hnl
    cases rest with
    | nil =>
      have : joinLines [l] = l := rfl
      rw [this, splitNl_no_nl l (hnl l (List.mem_cons_self l []))]
    | cons x xs =>
      rw [joinLines_cons l (x :: xs) (by simp)]
      rw [splitNl_append l _ (hnl l (List.mem_cons_self l _))]
      rw [ih (by simp) (fun m hm => hnl m (List.mem_cons_of_mem l hm))]

theorem pyStrip_eq_self (l : List Char)
    (h1 : ∀ c, l.head? = some c → isPyWs c = false)
    (h2 : ∀ c, l.getLast? = some c → isPyWs c = false) :
    pyStrip l = l := by
  cases hl : l with
  | nil => rfl
  | cons a t =>
    have ha : isPyWs a = false := h1 a (by rw [hl]; rfl)
    unfold pyStrip
    rw [List.dropWhile_cons]
    simp only [ha, Bool.false_eq_true, if_false]
    cases hr : (a :: t).reverse with
    | nil => simp at hr
    | cons c r' =>
      have hlast : (a :: t).getLast? = some c := by
        rw [← List.head?_reverse, hr]; rfl
      have hc : isPyWs c = false := h2 c (by rw [hl]; exact hlast)
      rw [List.dropWhile_cons]
      simp only [hc, Bool.false_eq_true, if_false]
      rw [← hr, List.reverse_reverse]

/-- The last character of `l` exists and survives `strip`. -/
def lastOk (l : List Char) : Prop :=
  ∃ c, l.getLast? = some c ∧ isPyWs c = false

theorem lastOk_append (a l : List Char) (h : lastOk l) : lastOk (a ++ l) := by
  rcases h with ⟨c, hc, hws⟩
  exact ⟨c, by rw [List.getLast?_append, hc]; rfl, hws⟩

theorem lastOk_cons (a : Char) (l : List Char) (h : lastOk l) : lastOk (a :: l) :=
  lastOk_append [a] l h

theorem wfField_lastOk (f : List Char) (h : wfField f = true) : lastOk f := by
  have hne : f ≠ [] := by
    intro hf
    rw [hf] at h
    simp [wfField] at h
  cases hgl : f.getLast? with
  | none => exact absurd (List.getLast?_eq_none_iff.mp hgl) hne
  | some c =>
    refine ⟨c, hgl, ?_⟩
    have : f.getLastD ' ' = c := by
      rw [List.getLastD_eq_getLast?, hgl]; rfl
    simp only [wfField, Bool.and_eq_true, Bool.not_eq_true'] at h
    rw [← this]
    exact h.2

theorem wfField_ne_nil (f : List Char) (h : wfField f = true) : f ≠ [] := by
  intro hf
  rw [hf] at h
  simp [wfField] at h

theorem wfField_no_nl (f : List Char) (h : wfField f = true) : '\n' ∉ f := by
  simp only [wfField, Bool.and_eq_true, Bool.not_eq_true'] at h
  have hcon := h.1.2
  intro hm
  simp_all

theorem no_nl_key_field (key f : List Char) (hk : '\n' ∉ key) (hf : '\n' ∉ f) :
    '\n' ∉ key ++ f := by
  intro hm
  rcases List.mem_append.mp hm with h | h
  · exact hk h
  · exact hf h

theorem joinLines_append (xs ys : List (List Char)) (hxs : xs ≠ []) (hys : ys ≠ []) :
    joinLines (xs ++ ys) = joinLines xs ++ '\n' :: joinLines ys := by
  induction xs with
  | nil => exact absurd rfl hxs
  | cons x xrest ih =>
    cases xrest with
    | nil =>
      rw [List.cons_append, List.nil_append, joinLines_cons x ys hys]
      rfl
    | cons x2 xr2 =>
      rw [List.cons_append, joinLines_cons x ((x2 :: xr2) ++ ys) (by simp),
        joinLines_cons x (x2 :: xr2) (by simp), ih (by simp)]
      simp

/-- Every line of a rendered, well-formed stream is newline-free. -/
theorem joinBlocks_no_nl :
    ∀ blocks : List WTBlock, (∀ b ∈ blocks, wfBlock b = true) →
      ∀ l ∈ joinBlocks blocks, '\n' ∉ l := by
  have hkeys : '\n' ∉ "worktree ".data ∧ '\n' ∉ "HEAD ".data ∧ '\n' ∉ "branch ".data := by
    decide
  have hrender : ∀ b : WTBlock, wfBlock b = true → ∀ l ∈ renderBlock b, '\n' ∉ l := by
    intro b hb l hl
    simp only [wfBlock, Bool.and_eq_true] at hb
    rcases hb with ⟨⟨hp, hh⟩, hbr⟩
    have hwtl : '\n' ∉ "worktree ".data ++ b.path :=
      no_nl_key_field _ _ hkeys.1 (wfField_no_nl b.path hp)
    cases hhd : b.head with
    | none =>
      cases hbd : b.branch with
      | none =>
        have hr : renderBlock b = ["worktree ".data ++ b.path] := by
          simp [renderBlock, hhd, hbd]
        rw [hr] at hl
        rcases List.mem_singleton.mp hl with rfl
        exact hwtl
      | some bv =>
        rw [hbd] at hbr
        have hr : renderBlock b = ["worktree ".data ++ b.path, "branch ".data ++ bv] := by
          simp [renderBlock, hhd, hbd]
        rw [hr] at hl
        rcases List.mem_cons.mp hl with rfl | hl2
        · exact hwtl
        · rcases List.mem_singleton.mp hl2 with rfl
          exact no_nl_key_field _ _ hkeys.2.2 (wfField_no_nl bv hbr)
    | some hv =>
      rw [hhd] at hh
      cases hbd : b.branch with
      | none =>
        have hr : renderBlock b = ["worktree ".data ++ b.path, "HEAD ".data ++ hv] := by
          simp [renderBlock, hhd, hbd]
        rw [hr] at hl
        rcases List.mem_cons.mp hl with rfl | hl2
        · exact hwtl
        · rcases List.mem_singleton.mp hl2 with rfl
          exact no_nl_key_field _ _ hkeys.2.1 (wfField_no_nl hv hh)
      | some bv =>
        rw [hbd] at hbr
        have hr : renderBlock b
            = ["worktree ".data ++ b.path, "HEAD ".data ++ hv, "branch ".data ++ bv] := by
          simp [renderBlock, hhd, hbd]
        rw [hr] at hl
        rcases List.mem_cons.mp hl with rfl | hl2
        · exact hwtl
        · rcases List.mem_cons.mp hl2 with rfl | hl3
          · exact no_nl_key_field _ _ hkeys.2.1 (wfField_no_nl hv hh)
          · rcases List.mem_singleton.mp hl3 with rfl
            exact no_nl_key_field _ _ hkeys.2.2 (wfField_no_nl bv hbr)
  intro blocks
  induction blocks with
  | nil => intro _ l hl; simp [joinBlocks] at hl
  | cons b rest ih =>
    intro hwf l hl
    have hb : wfBlock b = true := hwf b (List.mem_cons_self _ _)
    have hrest : ∀ b' ∈ rest, wfBlock b' = true :=
      fun b' hb' => hwf b' (List.mem_cons_of_mem _ hb')
    cases rest with
    | nil =>
      have : joinBlocks [b] = renderBlock b := by simp [joinBlocks]
      rw [this] at hl
      exact hrender b hb l hl
    | cons b2 r2 =>
      have : joinBlocks (b :: b2 :: r2) = renderBlock b ++ ([] :: joinBlocks (b2 :: r2)) := rfl
      rw [this] at hl
      rcases List.mem_append.mp hl with hm | hm
      · exact hrender b hb l hm
      · rcases List.mem_cons.mp hm with hm | hm
        · subst hm; simp
        · exact ih hrest l hm

theorem renderBlock_ne_nil (b : WTBlock) : renderBlock b ≠ [] := by
  simp [renderBlock]

theorem joinBlocks_ne_nil (b : WTBlock) (rest : List WTBlock) :
    joinBlocks (b :: rest) ≠ [] := by
  cases rest with
  | nil =>
    have : joinBlocks [b] = renderBlock b := by simp [joinBlocks]
    rw [this]; exact renderBlock_ne_nil b
  | cons b2 r2 =>
    have : joinBlocks (b :: b2 :: r2) = renderBlock b ++ ([] :: joinBlocks (b2 :: r2)) := rfl
    rw [this]
    simp [renderBlock]

/-- The rendered text of a well-formed block ends in a strip-safe
character. -/
theorem lastOk_renderBlock (b : WTBlock) (h : wfBlock b = true) :
    lastOk (joinLines (renderBlock b)) := by
  simp only [wfBlock, Bool.and_eq_true] at h
  rcases h with ⟨⟨hp, hh⟩, hbr⟩
  cases hhd : b.head with
  | none =>
    cases hbd : b.branch with
    | none =>
      have : renderBlock b = ["worktree ".data ++ b.path] := by
        simp [renderBlock, hhd, hbd]
      rw [this]
      exact lastOk_append _ _ (wfField_lastOk b.path hp)
    | some bv =>
      rw [hbd] at hbr
      have : renderBlock b = ["worktree ".data ++ b.path, "branch ".data ++ bv] := by
        simp [renderBlock, hhd, hbd]
      rw [this, joinLines_cons _ _ (by simp)]
      exact lastOk_append _ _ (lastOk_cons _ _ (lastOk_append _ _ (wfField_lastOk bv hbr)))
  | some hv =>
    rw [hhd] at hh
    cases hbd : b.branch with
    | none =>
      have : renderBlock b = ["worktree ".data ++ b.path, "HEAD ".data ++ hv] := by
        simp [renderBlock, hhd, hbd]
      rw [this, joinLines_cons _ _ (by simp)]
      exact lastOk_append _ _ (lastOk_cons _ _ (lastOk_append _ _ (wfField_lastOk hv hh)))
    | some bv =>
      rw [hbd] at hbr
      have : renderBlock b
          = ["worktree ".data ++ b.path, "HEAD ".data ++ hv, "branch ".data ++ bv] := by
        simp [renderBlock, hhd, hbd]
      rw [this, joinLines_cons _ _ (by simp), joinLines_cons _ _ (by simp)]
      refine lastOk_append _ _ (lastOk_cons _ _ ?_)
      exact lastOk_append _ _ (lastOk_cons _ _ (lastOk_append _ _ (wfField_lastOk bv hbr)))

theorem lastOk_ne_nil (l : List Char) (h : lastOk l) : l ≠ [] := by
  rcases h with ⟨c, hc, _⟩
  intro hl
  rw [hl] at hc
  simp at hc

/-- The whole rendered stream of a non-empty well-formed block list ends in
a strip-safe character. -/
theorem lastOk_joinBlocks :
    ∀ (b : WTBlock) (rest : List WTBlock),
      (∀ x ∈ b :: rest, wfBlock x = true) →
      lastOk (joinLines (joinBlocks (b :: rest))) := by
  intro b rest
  induction rest generalizing b with
  | nil =>
    intro hwf
    have : joinBlocks [b] = renderBlock b := by simp [joinBlocks]
    rw [this]
    exact lastOk_renderBlock b (hwf b (List.mem_cons_self _ _))
  | cons b2 r2 ih =>
    intro hwf
    have hrec : joinBlocks (b :: b2 :: r2) = renderBlock b ++ ([] :: joinBlocks (b2 :: r2)) := rfl
    have htail := ih b2 (fun x hx => hwf x (List.mem_cons_of_mem _ hx))
    have htailne : joinLines (joinBlocks (b2 :: r2)) ≠ [] := lastOk_ne_nil _ htail
    rw [hrec, joinLines_append _ _ (renderBlock_ne_nil b) (by simp),
      joinLines_cons _ _ (joinBlocks_ne_nil b2 r2)]
    exact lastOk_append _ _ (lastOk_cons _ _ (lastOk_cons _ _ htail))

theorem head?_append_left (l m : List Char) (c : Char) (h : l.head? = some c) :
    (l ++ m).head? = some c := by
  cases l with
  | nil => simp at h
  | cons a t => simpa using h

/-- The rendered text of one block starts with `w`. -/
theorem head_renderBlock (b : WTBlock) : (joinLines (renderBlock b)).head? = some 'w' := by
  have hwt : ∀ p : List Char, ("worktree ".data ++ p).head? = some 'w' := fun _ => rfl
  cases hhd : b.head with
  | none =>
    cases hbd : b.branch with
    | none =>
      have : renderBlock b = ["worktree ".data ++ b.path] := by simp [renderBlock, hhd, hbd]
      rw [this]
      exact hwt b.path
    | some bv =>
      have : renderBlock b = ["worktree ".data ++ b.path, "branch ".data ++ bv] := by
        simp [renderBlock, hhd, hbd]
      rw [this, joinLines_cons _ _ (by simp)]
      exact head?_append_left _ _ _ (hwt b.path)
  | some hv =>
    cases hbd : b.branch with
    | none =>
      have : renderBlock b = ["worktree ".data ++ b.path, "HEAD ".data ++ hv] := by
        simp [renderBlock, hhd, hbd]
      rw [this, joinLines_cons _ _ (by simp)]
      exact head?_append_left _ _ _ (hwt b.path)
    | some bv =>
      have : renderBlock b
          = ["worktree ".data ++ b.path, "HEAD ".data ++ hv, "branch ".data ++ bv] := by
        simp [renderBlock, hhd, hbd]
      rw [this, joinLines_cons _ _ (by simp)]
      exact head?_append_left _ _ _ (hwt b.path)

/-- The rendered stream of a non-empty block list starts with `w`. -/
theorem head_joinBlocks (b : WTBlock) (rest : List WTBlock) :
    (joinLines (joinBlocks (b :: rest))).head? = some 'w' := by
  cases rest with
  | nil =>
    have h1 : joinBlocks [b] = renderBlock b := by simp [joinBlocks]
    rw [h1]
    exact head_renderBlock b
  | cons b2 r2 =>
    have hrec : joinBlocks (b :: b2 :: r2) = renderBlock b ++ ([] :: joinBlocks (b2 :: r2)) := rfl
    rw [hrec, joinLines_append _ _ (renderBlock_ne_nil b) (by simp)]
    exact head?_append_left _ _ _ (head_renderBlock b)

/-- C8: the worktree-listing parser yields one record per block in input
order (blank-line-separated blocks of `worktree`/`HEAD`/`branch` lines); a
block with no `branch` line yields a record with `branch` unset (visible in
`blockRecord`); empty stdout yields `[]`; a non-zero exit code of the
underlying command yields `[]`. -/
theorem git_worktree_list_spec :
    (∀ (rc : Int) (out : List Char), rc ≠ 0 → git_worktree_list rc out = []) ∧
    git_worktree_list 0 [] = [] ∧
    (∀ blocks : List WTBlock, (∀ b ∈ blocks, wfBlock b = true) →
      git_worktree_list 0 (joinLines (joinBlocks blocks)) = blocks.map blockRecord) := by
  refine ⟨?_, by decide, ?_⟩
  · intro rc out h
    simp [git_worktree_list, h]
  · intro blocks hwf
    cases blocks with
    | nil => decide
    | cons b rest =>
      have hstrip : pyStrip (joinLines (joinBlocks (b :: rest)))
          = joinLines (joinBlocks (b :: rest)) := by
        apply pyStrip_eq_self
        · intro c hc
          rw [head_joinBlocks b rest] at hc
          obtain rfl := Option.some.inj hc
          decide
        · intro c hc
          obtain ⟨c', hc', hws⟩ := lastOk_joinBlocks b rest hwf
          obtain rfl := Option.some.inj (hc'.symm.trans hc)
          exact hws
      have hsplit : splitNl (joinLines (joinBlocks (b :: rest))) = joinBlocks (b :: rest) :=
        splitNl_joinLines _ (joinBlocks_ne_nil b rest) (joinBlocks_no_nl _ hwf)
      simp only [git_worktree_list]
      rw [if_neg (by decide), hstrip, hsplit, parse_joinBlocks]
      simp [WTRecord.nonEmpty]

/-- Witness for C8: a non-zero exit yields `[]`, and a concrete two-block
stream (the second block detached, i.e. without a `branch` line) yields two
records in order, the second with `branch` unset. -/
theorem git_worktree_list_spec_witness :
    git_worktree_list 1 "oops".data = [] ∧
    git_worktree_list 0
        (joinLines (joinBlocks
          [⟨"/w/a".data, some "abc123".data, some "refs/heads/x".data⟩,
           ⟨"/w/b".data, some "789def".data, none⟩]))
      = [⟨some "/w/a".data, some "refs/heads/x".data, some "abc123".data⟩,
         ⟨some "/w/b".data, none, some "789def".data⟩] := by
  constructor
  · exact git_worktree_list_spec.1 1 "oops".data (by decide)
  · rw [git_worktree_list_spec.2.2 _ (by decide)]
    rfl

/-! ## `merge_claude_settings` (value level)

Python: `result = copy.deepcopy(project)`; if `"hooks" in sandbox`, ensure
`result["hooks"]` exists (fresh `{}` if absent), then for each
`(event, hooks_list)` of `sandbox["hooks"]` either
`result["hooks"][event].extend(hooks_list)` (event present) or
`result["hooks"][event] = hooks_list` (absent); finally every non-`hooks`
top-level sandbox key overwrites the project key.  Python dicts are embedded
as association lists in insertion order (lookup = first match, assignment =
update-in-place-or-append); a raised exception (indexing/extending a value
of the wrong shape) is `none`.  Deep copy of an immutable value tree is the
identity at this level; the heap-level model below treats aliasing. -/

/-- A Python value as the merge sees it: an opaque leaf, a list, or a
string-keyed dict. -/
inductive Val where
  | atom (n : Nat)
  | list (xs : List Val)
  | dict (fields : List (String × Val))

/-- A Python dict in insertion order. -/
abbrev SDict := List (String × Val)

/-- Dict lookup: first matching key. -/
def dict_lookup (d : SDict) (k : String) : Option Val :=
  match d with
  | [] => none
  | (k', v) :: rest => if k' = k then some v else dict_lookup rest k

/-- Python `k in d`. -/
def dict_contains (d : SDict) (k : String) : Bool :=
  (dict_lookup d k).isSome

/-- Python `d[k] = v`: replace in place, else append. -/
def dict_set (d : SDict) (k : String) (v : Val) : SDict :=
  match d with
  | [] => [(k, v)]
  | (k', v') :: rest => if k' = k then (k, v) :: rest else (k', v') :: dict_set rest k v

/-- The keys of a dict, in order. -/
def keys (d : SDict) : List String := d.map Prod.fst

/-- Whether a dict's insertion order carries no duplicate key (an invariant
of every real Python dict). -/
def distinct_keys : SDict → Bool
  | [] => true
  | (k, _) :: rest => !(keys rest).contains k && distinct_keys rest

def as_dict : Val → Option SDict
  | .dict f => some f
  | _ => none

def as_list : Val → Option (List Val)
  | .list xs => some xs
  | _ => none

/-- The loop over `sandbox["hooks"].items()`. -/
def merge_hooks_loop : List (String × Val) → SDict → Option SDict
  | [], result => some result
  | (event, hl) :: rest, result =>
    match dict_lookup result "hooks" with
    | none => none
    | some rv =>
      match as_dict rv with
      | none => none
      | some rh =>
        if dict_contains rh event then
          match (dict_lookup rh event).bind as_list, as_list hl with
          | some old, some newElems =>
            merge_hooks_loop rest
              (dict_set result "hooks" (.dict (dict_set rh event (.list (old ++ newElems)))))
          | _, _ => none
        else
          merge_hooks_loop rest (dict_set result "hooks" (.dict (dict_set rh event hl)))

/-- The loop over `sandbox.items()` for the non-`hooks` keys. -/
def other_keys_loop : List (String × Val) → SDict → SDict
  | [], r => r
  | (k, v) :: rest, r => other_keys_loop rest (if k = "hooks" then r else dict_set r k v)

/-- `merge_claude_settings` (value level). -/
def merge_claude_settings (project sandbox : SDict) : Option SDict :=
  match dict_lookup sandbox "hooks" with
  | none => some (other_keys_loop sandbox project)
  | some sv =>
    match as_dict sv with
    | none => none
    | some shooks =>
      let result0 := if dict_contains project "hooks" then project
        else dict_set project "hooks" (.dict [])
      match merge_hooks_loop shooks result0 with
      | none => none
      | some result1 => some (other_keys_loop sandbox result1)

/-! ### Observations used to state the merge's contract -/

/-- The hook list a dict-of-lists associates to an event. -/
def lookup_list (hd : SDict) (ev : String) : Option (List Val) :=
  match dict_lookup hd ev with
  | some (.list xs) => some xs
  | _ => none

/-- The hook list a whole settings dict associates to an event. -/
def hooks_of (d : SDict) (ev : String) : Option (List Val) :=
  match dict_lookup d "hooks" with
  | some (.dict hd) => lookup_list hd ev
  | _ => none

/-- Project hooks first, then sandbox hooks; an event present on one side
only keeps that side's list. -/
def hooks_concat : Option (List Val) → Option (List Val) → Option (List Val)
  | some x, some y => some (x ++ y)
  | some x, none => some x
  | none, some y => some y
  | none, none => none

/-- The settings' `hooks` entry, when present, is a dict of lists. -/
def hooks_wt (d : SDict) : Bool :=
  match dict_lookup d "hooks" with
  | none => true
  | some (.dict hd) => hd.all (fun p => (as_list p.2).isSome)
  | some _ => false

/-- The settings' `hooks` entry, when a dict, has distinct keys. -/
def hooks_distinct (d : SDict) : Bool :=
  match dict_lookup d "hooks" with
  | some (.dict hd) => distinct_keys hd
  | _ => true

/-! ### Dict lemmas -/

theorem dict_lookup_set (d : SDict) (k : String) (v : Val) (k2 : String) :
    dict_lookup (dict_set d k v) k2 = if k = k2 then some v else dict_lookup d k2 := by
  induction d with
  | nil => simp [dict_set, dict_lookup]
  | cons p rest ih =>
    obtain ⟨k', v'⟩ := p
    by_cases h1 : k' = k
    · subst h1
      simp only [dict_set, if_pos rfl, dict_lookup]
      by_cases h2 : k' = k2 <;> simp [h2]
    · simp only [dict_set, if_neg h1, dict_lookup]
      by_cases h2 : k' = k2
      · subst h2
        have : ¬ k = k' := fun h => h1 h.symm
        simp [this]
      · simp [h2, ih]

theorem dict_lookup_eq_none_of_not_contains (d : SDict) (k : String)
    (h : (keys d).contains k = false) : dict_lookup d k = none := by
  induction d with
  | nil => rfl
  | cons p rest ih =>
    obtain ⟨k', v'⟩ := p
    simp only [keys, List.map_cons, List.contains_cons, Bool.or_eq_false_iff] at h
    have hne : k' ≠ k := by
      intro he
      subst he
      simp at h
    simp only [dict_lookup, if_neg hne]
    exact ih h.2

theorem hooks_concat_none_right (x : Option (List Val)) : hooks_concat x none = x := by
  cases x <;> rfl

theorem as_list_eq_some (x : Val) (xs : List Val) : as_list x = some xs ↔ x = .list xs := by
  cases x <;> simp [as_list]

theorem dict_lookup_mem (d : SDict) (k : String) (v : Val)
    (h : dict_lookup d k = some v) : (k, v) ∈ d := by
  induction d with
  | nil => simp [dict_lookup] at h
  | cons p rest ih =>
    obtain ⟨k', v'⟩ := p
    by_cases hk : k' = k
    · subst hk
      simp only [dict_lookup, if_pos rfl] at h
      obtain rfl := Option.some.inj h
      exact List.mem_cons_self _ _
    · simp only [dict_lookup, if_neg hk] at h
      exact List.mem_cons_of_mem _ (ih h)

theorem other_keys_loop_hooks (s : List (String × Val)) (r : SDict) :
    dict_lookup (other_keys_loop s r) "hooks" = dict_lookup r "hooks" := by
  induction s generalizing r with
  | nil => rfl
  | cons p rest ih =>
    obtain ⟨k, v⟩ := p
    by_cases hk : k = "hooks"
    · simp [other_keys_loop, hk, ih]
    · simp only [other_keys_loop, if_neg hk]
      rw [ih, dict_lookup_set]
      simp [hk]

theorem other_keys_loop_lookup (s : List (String × Val)) (r : SDict) (k : String)
    (hk : k ≠ "hooks") (hs : distinct_keys s = true) :
    dict_lookup (other_keys_loop s r) k
      = match dict_lookup s k with
        | some v => some v
        | none => dict_lookup r k := by
  induction s generalizing r with
  | nil => rfl
  | cons p rest ih =>
    obtain ⟨k0, v0⟩ := p
    simp only [distinct_keys, Bool.and_eq_true, Bool.not_eq_true'] at hs
    by_cases hk0 : k0 = "hooks"
    · simp only [other_keys_loop, if_pos hk0]
      rw [ih _ hs.2]
      have hne : k0 ≠ k := fun h => hk (h ▸ hk0)
      simp [dict_lookup, hne]
    · simp only [other_keys_loop, if_neg hk0]
      by_cases hkk : k0 = k
      · subst hkk
        rw [ih _ hs.2]
        have hnone : dict_lookup rest k0 = none :=
          dict_lookup_eq_none_of_not_contains _ _ hs.1
        rw [hnone]
        have hr : dict_lookup ((k0, v0) :: rest) k0 = some v0 := by simp [dict_lookup]
        rw [hr]
        simp [dict_lookup_set]
      · rw [ih _ hs.2]
        have hr : dict_lookup ((k0, v0) :: rest) k = dict_lookup rest k := by
          simp [dict_lookup, hkk]
        rw [hr]
        cases h : dict_lookup rest k with
        | some v => rfl
        | none => simp [dict_lookup_set, hkk]

theorem merge_hooks_loop_spec :
    ∀ (entries : List (String × Val)) (result rh : SDict),
      distinct_keys entries = true →
      entries.all (fun p => (as_list p.2).isSome) = true →
      dict_lookup result "hooks" = some (.dict rh) →
      (∀ ev x, dict_lookup rh ev = some x → (as_list x).isSome = true) →
      ∃ result2 rh2, merge_hooks_loop entries result = some result2 ∧
        dict_lookup result2 "hooks" = some (.dict rh2) ∧
        (∀ k, k ≠ "hooks" → dict_lookup result2 k = dict_lookup result k) ∧
        (∀ ev x, dict_lookup rh2 ev = some x → (as_list x).isSome = true) ∧
        (∀ ev, lookup_list rh2 ev = hooks_concat (lookup_list rh ev) (lookup_list entries ev)) := by
  intro entries
  induction entries with
  | nil =>
    intro result rh _ _ hlook hvals
    refine ⟨result, rh, rfl, hlook, fun _ _ => rfl, hvals, fun ev => ?_⟩
    have : lookup_list ([] : SDict) ev = none := rfl
    rw [this, hooks_concat_none_right]
  | cons p rest ih =>
    obtain ⟨event, hl⟩ := p
    intro result rh hdist hall hlook hvals
    simp only [distinct_keys, Bool.and_eq_true, Bool.not_eq_true'] at hdist
    simp only [List.all_cons, Bool.and_eq_true] at hall
    obtain ⟨newElems, hnew⟩ := Option.isSome_iff_exists.mp hall.1
    have hhl : hl = .list newElems := (as_list_eq_some hl newElems).mp hnew
    have hrest_none : dict_lookup rest event = none :=
      dict_lookup_eq_none_of_not_contains _ _ hdist.1
    by_cases hc : dict_contains rh event = true
    · -- event already present in result["hooks"]: extend
      obtain ⟨x, hx⟩ := Option.isSome_iff_exists.mp hc
      obtain ⟨old, hold⟩ := Option.isSome_iff_exists.mp (hvals event x hx)
      have hxl : x = .list old := (as_list_eq_some x old).mp hold
      have hstep : merge_hooks_loop ((event, hl) :: rest) result
          = merge_hooks_loop rest
              (dict_set result "hooks"
                (.dict (dict_set rh event (.list (old ++ newElems))))) := by
        simp only [merge_hooks_loop, hlook, as_dict, hc, if_true, hx, Option.some_bind,
          hold, hnew]
      have hlook2 : dict_lookup
          (dict_set result "hooks" (.dict (dict_set rh event (.list (old ++ newElems)))))
          "hooks" = some (.dict (dict_set rh event (.list (old ++ newElems)))) := by
        simp [dict_lookup_set]
      have hvals2 : ∀ ev x2,
          dict_lookup (dict_set rh event (.list (old ++ newElems))) ev = some x2 →
          (as_list x2).isSome = true := by
        intro ev x2 h2
        rw [dict_lookup_set] at h2
        by_cases hev : event = ev
        · rw [if_pos hev] at h2
          obtain rfl := Option.some.inj h2
          simp [as_list]
        · rw [if_neg hev] at h2
          exact hvals ev x2 h2
      obtain ⟨result2, rh2, hrun, hl2, hk2, hv2, hfin⟩ :=
        ih _ _ hdist.2 hall.2 hlook2 hvals2
      refine ⟨result2, rh2, hstep.trans hrun, hl2, ?_, hv2, ?_⟩
      · intro k hk
        rw [hk2 k hk, dict_lookup_set, if_neg (fun h => hk h.symm)]
      · intro ev
        rw [hfin ev]
        by_cases hev : event = ev
        · subst hev
          have h1 : lookup_list (dict_set rh event (.list (old ++ newElems))) event
              = some (old ++ newElems) := by
            simp [lookup_list, dict_lookup_set]
          have h2 : lookup_list rest event = none := by
            simp [lookup_list, hrest_none]
          have h3 : lookup_list rh event = some old := by
            simp [lookup_list, hx, hxl]
          have h4 : lookup_list ((event, hl) :: rest) event = some newElems := by
            simp [lookup_list, dict_lookup, hhl]
          rw [h1, h2, h3, h4]
          rfl
        · have h1 : lookup_list (dict_set rh event (.list (old ++ newElems))) ev
              = lookup_list rh ev := by
            simp [lookup_list, dict_lookup_set, hev]
          have h4 : lookup_list ((event, hl) :: rest) ev = lookup_list rest ev := by
            simp [lookup_list, dict_lookup, hev]
          rw [h1, h4]
    · -- event absent: alias the sandbox list in
      have hnone : dict_lookup rh event = none := by
        cases h : dict_lookup rh event with
        | none => rfl
        | some x =>
          exfalso
          apply hc
          simp [dict_contains, h]
      have hcf : dict_contains rh event = false := by
        simp [dict_contains, hnone]
      have hstep : merge_hooks_loop ((event, hl) :: rest) result
          = merge_hooks_loop rest (dict_set result "hooks" (.dict (dict_set rh event hl))) := by
        simp only [merge_hooks_loop, hlook, as_dict, hcf, Bool.false_eq_true, if_false]
      have hlook2 : dict_lookup (dict_set result "hooks" (.dict (dict_set rh event hl)))
          "hooks" = some (.dict (dict_set rh event hl)) := by
        simp [dict_lookup_set]
      have hvals2 : ∀ ev x2, dict_lookup (dict_set rh event hl) ev = some x2 →
          (as_list x2).isSome = true := by
        intro ev x2 h2
        rw [dict_lookup_set] at h2
        by_cases hev : event = ev
        · rw [if_pos hev] at h2
          obtain rfl := Option.some.inj h2
          rw [hnew]
          rfl
        · rw [if_neg hev] at h2
          exact hvals ev x2 h2
      obtain ⟨result2, rh2, hrun, hl2, hk2, hv2, hfin⟩ :=
        ih _ _ hdist.2 hall.2 hlook2 hvals2
      refine ⟨result2, rh2, hstep.trans hrun, hl2, ?_, hv2, ?_⟩
      · intro k hk
        rw [hk2 k hk, dict_lookup_set, if_neg (fun h => hk h.symm)]
      · intro ev
        rw [hfin ev]
        by_cases hev : event = ev
        · subst hev
          have h1 : lookup_list (dict_set rh event hl) event = some newElems := by
            simp [lookup_list, dict_lookup_set, hhl]
          have h2 : lookup_list rest event = none := by
            simp [lookup_list, hrest_none]
          have h3 : lookup_list rh event = none := by
            simp [lookup_list, hnone]
          have h4 : lookup_list ((event, hl) :: rest) event = some newElems := by
            simp [lookup_list, dict_lookup, hhl]
          rw [h1, h2, h3, h4]
          rfl
        · have h1 : lookup_list (dict_set rh event hl) ev = lookup_list rh ev := by
            simp [lookup_list, dict_lookup_set, hev]
          have h4 : lookup_list ((event, hl) :: rest) ev = lookup_list rest ev := by
            simp [lookup_list, dict_lookup, hev]
          rw [h1, h4]

/-- C7: for every pair of settings dicts (with Python's dict-key
distinctness, and hooks entries that are dicts of lists), the merge
succeeds and maps each hook event to the project's hooks followed by the
sandbox's hooks (either side's list alone if the event is on one side
only), every non-`hooks` sandbox key takes the sandbox value, and
project-only keys are retained. -/
theorem merge_claude_settings_spec (project sandbox : SDict)
    (hsd : distinct_keys sandbox = true)
    (hpw : hooks_wt project = true)
    (hsw : hooks_wt sandbox = true)
    (hshd : hooks_distinct sandbox = true) :
    ∃ m, merge_claude_settings project sandbox = some m ∧
      (∀ ev, hooks_of m ev = hooks_concat (hooks_of project ev) (hooks_of sandbox ev)) ∧
      (∀ k, k ≠ "hooks" →
        dict_lookup m k = match dict_lookup sandbox k with
          | some v => some v
          | none => dict_lookup project k) := by
  cases hsb : dict_lookup sandbox "hooks" with
  | none =>
    refine ⟨other_keys_loop sandbox project, by simp [merge_claude_settings, hsb], ?_, ?_⟩
    · intro ev
      have h1 : hooks_of sandbox ev = none := by simp [hooks_of, hsb]
      rw [h1, hooks_concat_none_right]
      simp [hooks_of, other_keys_loop_hooks]
    · intro k hk
      exact other_keys_loop_lookup sandbox project k hk hsd
  | some sv =>
    have hsv : ∃ sh, sv = Val.dict sh ∧ sh.all (fun p => (as_list p.2).isSome) = true := by
      unfold hooks_wt at hsw
      rw [hsb] at hsw
      cases sv with
      | atom n => exact Bool.noConfusion hsw
      | list xs => exact Bool.noConfusion hsw
      | dict f => exact ⟨f, rfl, hsw⟩
    obtain ⟨sh, rfl, hshl⟩ := hsv
    have hshdist : distinct_keys sh = true := by
      unfold hooks_distinct at hshd
      rw [hsb] at hshd
      exact hshd
    have H : ∃ rh0,
        dict_lookup (if dict_contains project "hooks" then project
          else dict_set project "hooks" (.dict [])) "hooks" = some (.dict rh0) ∧
        (∀ ev x, dict_lookup rh0 ev = some x → (as_list x).isSome = true) ∧
        (∀ ev, lookup_list rh0 ev = hooks_of project ev) ∧
        (∀ k, k ≠ "hooks" → dict_lookup (if dict_contains project "hooks" then project
          else dict_set project "hooks" (.dict [])) k = dict_lookup project k) := by
      by_cases hpc : dict_contains project "hooks" = true
      · obtain ⟨pv, hpv⟩ := Option.isSome_iff_exists.mp hpc
        have hpd : ∃ ph, pv = Val.dict ph ∧ ph.all (fun p => (as_list p.2).isSome) = true := by
          unfold hooks_wt at hpw
          rw [hpv] at hpw
          cases pv with
          | atom n => exact Bool.noConfusion hpw
          | list xs => exact Bool.noConfusion hpw
          | dict f => exact ⟨f, rfl, hpw⟩
        obtain ⟨ph, rfl, hphl⟩ := hpd
        refine ⟨ph, ?_, ?_, ?_, ?_⟩
        · rw [if_pos hpc]; exact hpv
        · intro ev x hx
          have hmem := dict_lookup_mem _ _ _ hx
          have := List.all_eq_true.mp hphl _ hmem
          simpa using this
        · intro ev
          simp [hooks_of, hpv]
        · intro k _
          rw [if_pos hpc]
      · have hpn : dict_lookup project "hooks" = none := by
          cases h : dict_lookup project "hooks" with
          | none => rfl
          | some x => exact absurd (by simp [dict_contains, h]) hpc
        refine ⟨[], ?_, ?_, ?_, ?_⟩
        · rw [if_neg hpc]; simp [dict_lookup_set]
        · intro ev x hx
          simp [dict_lookup] at hx
        · intro ev
          simp [hooks_of, hpn, lookup_list, dict_lookup]
        · intro k hk
          rw [if_neg hpc, dict_lookup_set, if_neg (fun h => hk h.symm)]
    obtain ⟨rh0, hlook0, hvals0, hproj0, hkeep0⟩ := H
    obtain ⟨result2, rh2, hrun, hl2, hk2, _, hfin⟩ :=
      merge_hooks_loop_spec sh _ rh0 hshdist hshl hlook0 hvals0
    refine ⟨other_keys_loop sandbox result2, ?_, ?_, ?_⟩
    · simp only [merge_claude_settings, hsb, as_dict]
      rw [hrun]
    · intro ev
      have hm : dict_lookup (other_keys_loop sandbox result2) "hooks" = some (.dict rh2) := by
        rw [other_keys_loop_hooks]; exact hl2
      have h1 : hooks_of (other_keys_loop sandbox result2) ev = lookup_list rh2 ev := by
        simp [hooks_of, hm]
      have h2 : hooks_of sandbox ev = lookup_list sh ev := by
        simp [hooks_of, hsb]
      rw [h1, h2, hfin ev, hproj0 ev]
    · intro k hk
      rw [other_keys_loop_lookup sandbox result2 k hk hsd]
      cases h : dict_lookup sandbox k with
      | some v => rfl
      | none =>
        show dict_lookup result2 k = dict_lookup project k
        rw [hk2 k hk, hkeep0 k hk]

/-- Witness for C7 at the spec's own example: sandbox hooks
`{PreToolUse: [B], Stop: [C]}` merged over project
`{hooks: {PreToolUse: [A]}, model: 3}` with sandbox `model: 4`. -/
theorem merge_claude_settings_spec_witness :
    ∃ m, merge_claude_settings
        [("hooks", .dict [("PreToolUse", .list [.atom 0])]), ("model", .atom 3)]
        [("hooks", .dict [("PreToolUse", .list [.atom 1]), ("Stop", .list [.atom 2])]),
         ("model", .atom 4)] = some m ∧
      (∀ ev, hooks_of m ev
        = hooks_concat
            (hooks_of [("hooks", .dict [("PreToolUse", .list [.atom 0])]),
              ("model", .atom 3)] ev)
            (hooks_of [("hooks", .dict [("PreToolUse", .list [.atom 1]),
              ("Stop", .list [.atom 2])]), ("model", .atom 4)] ev)) ∧
      (∀ k, k ≠ "hooks" →
        dict_lookup m k
          = match dict_lookup [("hooks", .dict [("PreToolUse", .list [.atom 1]),
              ("Stop", .list [.atom 2])]), ("model", .atom 4)] k with
            | some v => some v
            | none => dict_lookup [("hooks", .dict [("PreToolUse", .list [.atom 0])]),
                ("model", .atom 3)] k) :=
  merge_claude_settings_spec _ _ rfl rfl rfl rfl

/-! ## The lifecycle commands `start`, `rm`, `purge`

The commands are embedded as functions over an explicit environment
(`Env`) of external-probe answers, exactly at the subprocess/filesystem
boundary the Python code uses, returning the ordered list of external
side effects (`Eff`) plus the process outcome (`Outcome.exited c` for
`sys.exit(c)`, `Outcome.ok` for a normal return — exit code 0). -/

/-- `str.replace("refs/heads/", "")`, specialised. -/
def stripRefsHeads : List Char → List Char
  | [] => []
  | c :: rest =>
    if ("refs/heads/".data).isPrefixOf (c :: rest) then stripRefsHeads (rest.drop 10)
    else c :: stripRefsHeads rest
termination_by l => l.length
decreasing_by
  · simp only [List.length_cons, List.length_drop]
    omega
  · simp only [List.length_cons]
    omega

/-- The repository root, as `Path`: its parent directory and base name
(the Python code only ever uses `repo_root.parent` and `repo_root.name`). -/
structure GitRoot where
  parent : String
  name : String
deriving DecidableEq

def GitRoot.path (g : GitRoot) : String := g.parent ++ "/" ++ g.name

/-- One entry of `docker ps` as parsed by `docker_container_ls`. -/
structure DContainer where
  id : String
  name : String
  status : String
deriving DecidableEq

/-- The observable state of the external systems plus the interactive
answers, at the granularity of the subprocess calls the program makes. -/
structure Env where
  /-- `git rev-parse --show-toplevel` (`none`: not a git repository). -/
  repoRoot : Option GitRoot
  /-- stripped stdout of `git rev-parse --git-common-dir`. -/
  gitCommonDirOut : String
  /-- `Path.exists()`. -/
  pathExists : String → Bool
  /-- `docker container inspect <name>` succeeds. -/
  containerExists : String → Bool
  /-- the container exists and `.State.Running` is `true`. -/
  containerRunning : String → Bool
  /-- `docker rm -f <name>` succeeds. -/
  containerRmOk : String → Bool
  /-- `git show-ref --verify refs/heads/<b>` succeeds. -/
  localBranch : String → Bool
  /-- `git show-ref --verify refs/remotes/origin/<b>` succeeds (after fetch). -/
  remoteBranch : String → Bool
  /-- `git worktree add <path> [-b] <branch>` succeeds (path, branch, new?). -/
  worktreeAddOk : String → String → Bool → Bool
  /-- `git worktree remove <path>` succeeds. -/
  worktreeRemoveOk : String → Bool
  /-- `{repo}/Dockerfile.sandbox` exists. -/
  dockerfileSandboxExists : Bool
  /-- the project-template `docker build` succeeds. -/
  templateBuildOk : Bool
  /-- `docker image inspect sandbox-cli:default` succeeds. -/
  defaultImageExists : Bool
  /-- the tool's own `Dockerfile` exists. -/
  defaultDockerfileExists : Bool
  /-- the default-image `docker build` succeeds. -/
  defaultBuildOk : Bool
  /-- `gh auth token` succeeds. -/
  ghTokenOk : Bool
  /-- its stripped stdout. -/
  ghTokenOut : String
  /-- `Path.home()`. -/
  home : String
  /-- the bind probe of the port allocator. -/
  portFree : Nat → Bool
  /-- the `.env*` file names `copy_env_files` finds and copies. -/
  envFilesCopied : List String
  /-- `git worktree list --porcelain`, parsed: (path, `get("branch","")`). -/
  worktrees : List (String × String)
  /-- `docker ps -a` for the `sandbox-` prefix, parsed. -/
  containers : List DContainer
  /-- the answer to the `Delete branch?` confirmation. -/
  confirmBranchDelete : Bool
  /-- `git branch -D <b>` succeeds. -/
  branchDeleteOk : Bool

/-- One observable external side effect. -/
inductive Eff where
  | echoOut (msg : String)
  | echoErr (msg : String)
  | dockerRm (name : String)
  | dockerBuild (image : String)
  | gitWorktreeAdd (path : String) (branch : String) (newBranch : Bool)
  | gitWorktreeRemove (path : String)
  | gitFetch
  | copyEnvFiles (src : String) (dest : String)
  | setupClaudeSettings (path : String)
  | directive (line : String)
  | gitWorktreePrune
  | confirmPrompt (msg : String)
  | gitBranchDelete (branch : String)
deriving DecidableEq

/-- The process outcome: `sys.exit code`, or a normal return (exit 0). -/
inductive Outcome where
  | exited (code : Nat)
  | ok
deriving DecidableEq

/-- `get_main_git_dir`: special-case a `.git` answer, else take the answer
as-is. -/
def get_main_git_dir (env : Env) (repoRoot : GitRoot) : String :=
  if env.gitCommonDirOut = ".git" then repoRoot.path ++ "/.git"
  else env.gitCommonDirOut

/-- `get_worktree_path`: `repo_root.parent / f"{repo_name}__{name}"`. -/
def get_worktree_path (repoRoot : GitRoot) (name : String) : String :=
  repoRoot.parent ++ "/" ++ repoRoot.name ++ "__" ++ name

/-- The container name `sandbox-{repo_name}-{name}`. -/
def sandbox_container_name (repoName name : String) : String :=
  "sandbox-" ++ repoName ++ "-" ++ name

/-- `docker rm -f`; on success the container (and its running state) is
gone. -/
def docker_container_rm (env : Env) (nm : String) : List Eff × Bool × Env :=
  if env.containerRmOk nm then
    ([.dockerRm nm], true,
      { env with
        containerExists := fun n => if n = nm then false else env.containerExists n,
        containerRunning := fun n => if n = nm then false else env.containerRunning n })
  else ([.dockerRm nm], false, env)

/-- `ensure_default_image`: inspect, else build, exiting 1 when the
Dockerfile is missing or the build fails. -/
def ensure_default_image (env : Env) : List Eff × Except Nat String :=
  if env.defaultImageExists then ([], .ok "sandbox-cli:default")
  else if !env.defaultDockerfileExists then
    ([.echoErr "Default Dockerfile not found"], .error 1)
  else
    if env.defaultBuildOk then
      ([.echoOut "Building default sandbox image...", .dockerBuild "sandbox-cli:default"],
        .ok "sandbox-cli:default")
    else
      ([.echoOut "Building default sandbox image...", .dockerBuild "sandbox-cli:default",
        .echoErr "Failed to build default image"], .error 1)

/-- `build_template_if_exists`: build `Dockerfile.sandbox` when present
(`none` on failure), else fall back to the default image. -/
def build_template_if_exists (env : Env) (repoRoot : GitRoot) :
    List Eff × Except Nat (Option String) :=
  if !env.dockerfileSandboxExists then
    let r := ensure_default_image env
    (r.1, r.2.map some)
  else
    if env.templateBuildOk then
      ([.echoOut "Building project template...",
        .dockerBuild ("sandbox-template:" ++ repoRoot.name)],
        .ok (some ("sandbox-template:" ++ repoRoot.name)))
    else
      ([.echoOut "Building project template...",
        .dockerBuild ("sandbox-template:" ++ repoRoot.name)], .ok none)

/-- `get_gh_token`. -/
def get_gh_token (env : Env) : String :=
  if env.ghTokenOk then env.ghTokenOut else ""

/-- A single quote character (for the `--append-system-prompt` wrapping). -/
def squote : String := String.singleton (Char.ofNat 39)

/-- `run_sandbox`: emit the `__SANDBOX_*__` directive lines for the shell
wrapper.  An existing container yields an exec (or start-and-exec)
command; a new container yields a full `docker run` command with mounts,
env, dynamically allocated ports and the port system prompt.  (An empty
port list would raise `IndexError` at `ports[0]` in Python: modelled as
`.error 1`.) -/
def run_sandbox (env : Env) (name repoName mainGit worktreePath : String)
    (template : Option String) (resume : Bool) : List Eff × Except Nat Unit :=
  let containerName := sandbox_container_name repoName name
  let r := match template with
    | some t => ([], Except.ok t)
    | none => ensure_default_image env
  match r with
  | (t, .error c) => (t, .error c)
  | (t, .ok image) =>
    let claude_cmd := ["claude", "--dangerously-skip-permissions"]
      ++ (if resume then ["--continue"] else [])
    if env.containerExists containerName then
      let cmd_parts :=
        if env.containerRunning containerName then
          ["docker", "exec", "-it", containerName] ++ claude_cmd
        else
          ["docker", "start", containerName, "&&",
            "docker", "exec", "-it", containerName] ++ claude_cmd
      (t ++ [.directive ("__SANDBOX_CD__:" ++ worktreePath),
        .directive ("__SANDBOX_EXEC__:" ++ String.intercalate " " cmd_parts),
        .directive ("__SANDBOX_NAME__:" ++ name),
        .directive ("__SANDBOX_REPO__:" ++ repoName)], .ok ())
    else
      let ports := find_available_ports env.portFree 3 49152 65535
      match ports with
      | [] => (t, .error 1)
      | p0 :: _ =>
        let cmd_parts :=
          ["docker", "run", "-it", "--name", containerName,
            "-v", worktreePath ++ ":" ++ worktreePath,
            "-v", mainGit ++ ":" ++ mainGit,
            "-v", env.home ++ "/.claude:/home/agent/.claude",
            "-v", env.home ++ "/.config/gh:/home/agent/.config/gh:ro",
            "-e", "GH_TOKEN=" ++ get_gh_token env,
            "-e", "CLAUDE_CONFIG_DIR=/home/agent/.claude",
            "-e", "FORCE_COLOR=1",
            "-e", "COLORTERM=truecolor",
            "-v", env.home ++ "/.ssh:/home/agent/.ssh:ro"]
          ++ (ports.map (fun p => ["-p", toString p ++ ":" ++ toString p])).flatten
          ++ ["-e", "SANDBOX_PORTS=" ++ String.intercalate "," (ports.map toString),
            "-w", worktreePath, image]
          ++ claude_cmd
          ++ ["--append-system-prompt",
            squote ++ "You are running in a sandbox. Available ports for dev servers: "
              ++ String.intercalate ", " (ports.map toString)
              ++ ". When starting dev servers, use --port " ++ toString p0
              ++ " --host 0.0.0.0 (host binding required for port forwarding)." ++ squote]
        (t ++ [.directive ("__SANDBOX_CD__:" ++ worktreePath),
          .directive ("__SANDBOX_EXEC__:" ++ String.intercalate " " cmd_parts),
          .directive ("__SANDBOX_NAME__:" ++ name),
          .directive ("__SANDBOX_REPO__:" ++ repoName)], .ok ())

def outcomeOf : Except Nat Unit → Outcome
  | .error c => .exited c
  | .ok _ => .ok

/-- The spec's five-way lifecycle decision, in the source's `if`/`elif`
order. -/
inductive StartAction where
  | recreate
  | startFresh
  | createLocal
  | createRemote
  | createNew
deriving DecidableEq

def resolve_start (worktreeExists containerExists localBranch remoteBranch : Bool) :
    StartAction :=
  if worktreeExists && containerExists then .recreate
  else if worktreeExists then .startFresh
  else if localBranch then .createLocal
  else if remoteBranch then .createRemote
  else .createNew

/-- The trace of `copy_env_files` + its `Copied:` echo +
`setup_sandbox_claude_settings` + the final per-branch echo, shared by the
three worktree-creating paths. -/
def first_time_setup (env : Env) (repoRoot : GitRoot) (worktreePath : String)
    (doneMsg : String) : List Eff :=
  [.copyEnvFiles repoRoot.path worktreePath]
    ++ (if env.envFilesCopied ≠ [] then
        [.echoErr ("Copied: " ++ String.intercalate ", " env.envFilesCopied)] else [])
    ++ [.setupClaudeSettings worktreePath, .echoErr doneMsg]

/-- The `start` command (after name generation: `name` is the resolved
sandbox name). -/
def start (env : Env) (name : String) : List Eff × Outcome :=
  match env.repoRoot with
  | none => ([.echoErr "Not in a git repository"], .exited 1)
  | some repoRoot =>
    let sname := safe_name name
    let repoName := repoRoot.name
    let worktreePath := get_worktree_path repoRoot sname
    let mainGit := get_main_git_dir env repoRoot
    let containerName := sandbox_container_name repoName sname
    if env.pathExists worktreePath && env.containerExists containerName then
      -- recreate: rm the container, rebuild launch parameters, relaunch
      let rm := docker_container_rm env containerName
      let env1 := rm.2.2
      let bt := build_template_if_exists env1 repoRoot
      match bt with
      | (tT, .error c) =>
        (rm.1 ++ [.echoErr ("Recreating sandbox: " ++ sname)] ++ tT, .exited c)
      | (tT, .ok tmpl) =>
        let run := run_sandbox env1 sname repoName mainGit worktreePath tmpl false
        (rm.1 ++ [.echoErr ("Recreating sandbox: " ++ sname)] ++ tT ++ run.1,
          outcomeOf run.2)
    else if env.pathExists worktreePath then
      -- start fresh on the existing worktree
      match build_template_if_exists env repoRoot with
      | (tT, .error c) => (tT, .exited c)
      | (tT, .ok tmpl) =>
        let run := run_sandbox env sname repoName mainGit worktreePath tmpl false
        (tT ++ [.echoErr ("Starting sandbox: " ++ sname)] ++ run.1, outcomeOf run.2)
    else if env.localBranch name then
      -- create the worktree from the existing local branch
      match build_template_if_exists env repoRoot with
      | (tT, .error c) => (tT, .exited c)
      | (tT, .ok tmpl) =>
        if env.worktreeAddOk worktreePath name false then
          let run := run_sandbox env sname repoName mainGit worktreePath tmpl false
          (tT ++ [.gitWorktreeAdd worktreePath name false]
            ++ first_time_setup env repoRoot worktreePath
                ("Created sandbox from local branch: " ++ name)
            ++ run.1, outcomeOf run.2)
        else
          (tT ++ [.gitWorktreeAdd worktreePath name false,
            .echoErr ("Failed to create worktree for branch: " ++ name)], .exited 1)
    else if env.remoteBranch name then
      -- create the worktree tracking the remote branch (after a fetch)
      match build_template_if_exists env repoRoot with
      | (tT, .error c) => ([.gitFetch] ++ tT, .exited c)
      | (tT, .ok tmpl) =>
        if env.worktreeAddOk worktreePath name false then
          let run := run_sandbox env sname repoName mainGit worktreePath tmpl false
          ([.gitFetch] ++ tT ++ [.gitWorktreeAdd worktreePath name false]
            ++ first_time_setup env repoRoot worktreePath
                ("Created sandbox from remote branch: " ++ name)
            ++ run.1, outcomeOf run.2)
        else
          ([.gitFetch] ++ tT ++ [.gitWorktreeAdd worktreePath name false,
            .echoErr ("Failed to create worktree for remote branch: " ++ name)], .exited 1)
    else
      -- create a new `task/{name}` branch and worktree
      match build_template_if_exists env repoRoot with
      | (tT, .error c) => ([.gitFetch] ++ tT, .exited c)
      | (tT, .ok tmpl) =>
        if env.worktreeAddOk worktreePath ("task/" ++ name) true then
          let run := run_sandbox env sname repoName mainGit worktreePath tmpl false
          ([.gitFetch] ++ tT ++ [.gitWorktreeAdd worktreePath ("task/" ++ name) true]
            ++ first_time_setup env repoRoot worktreePath ("Created sandbox: " ++ sname)
            ++ run.1, outcomeOf run.2)
        else
          ([.gitFetch] ++ tT ++ [.gitWorktreeAdd worktreePath ("task/" ++ name) true,
            .echoErr "Failed to create worktree"], .exited 1)

/-- The `rm` command. -/
def rm (env : Env) (name : String) : List Eff × Outcome :=
  match env.repoRoot with
  | none => ([.echoErr "Not in a git repository"], .exited 1)
  | some repoRoot =>
    let sname := safe_name name
    let repoName := repoRoot.name
    let worktreePath := get_worktree_path repoRoot sname
    let containerName := sandbox_container_name repoName sname
    let branchName : Option String :=
      match env.worktrees.find? (fun wt => wt.1 = worktreePath) with
      | some wt => some ⟨stripRefsHeads wt.2.data⟩
      | none => none
    let rmc := docker_container_rm env containerName
    let removedContainer := rmc.2.1
    let removedWorktree := env.worktreeRemoveOk worktreePath
    let tEchoes :=
      (if removedContainer then [.echoOut ("Removed container: " ++ containerName)] else [])
        ++ (if removedWorktree then [.echoOut ("Removed worktree: " ++ worktreePath)] else [])
    if !removedContainer && !removedWorktree then
      (rmc.1 ++ [.gitWorktreeRemove worktreePath] ++ tEchoes
        ++ [.echoErr ("Nothing found to remove for: " ++ sname)], .exited 1)
    else
      let tBranch :=
        match branchName with
        | some bn =>
          if bn ≠ "" ∧ removedWorktree then
            [.confirmPrompt ("Delete branch " ++ squote ++ bn ++ squote ++ "?")]
              ++ (if env.confirmBranchDelete then
                  [.gitBranchDelete bn]
                    ++ (if env.branchDeleteOk then [.echoOut ("Deleted branch: " ++ bn)]
                        else [.echoErr "Failed to delete branch"])
                  else [])
          else []
        | none => []
      (rmc.1 ++ [.gitWorktreeRemove worktreePath] ++ tEchoes ++ tBranch, .ok)

/-- Python `needle in haystack` on character lists. -/
def chars_contain (needle : List Char) : List Char → Bool
  | [] => needle.isEmpty
  | c :: rest => needle.isPrefixOf (c :: rest) || chars_contain needle rest

/-- Python `needle in haystack` on strings. -/
def str_contains (haystack needle : String) : Bool :=
  chars_contain needle.data haystack.data

/-- The `purge` command. -/
def purge (env : Env) : List Eff × Outcome :=
  match env.repoRoot with
  | none => ([.echoErr "Not in a git repository"], .exited 1)
  | some repoRoot =>
    let repoName := repoRoot.name
    let tCont := (env.containers.map (fun c =>
      if str_contains c.name repoName then
        [Eff.dockerRm c.name]
          ++ (if env.containerRmOk c.name then
              [Eff.echoOut ("  Removed container: " ++ c.name)] else [])
      else [])).flatten
    let tWt := (env.worktrees.map (fun wt =>
      if str_contains wt.1 (repoName ++ "__") then
        [Eff.gitWorktreeRemove wt.1]
          ++ (if env.worktreeRemoveOk wt.1 then
              [Eff.echoOut ("  Removed worktree: " ++ wt.1)] else [])
      else [])).flatten
    ([.echoOut ("Removing all containers for " ++ repoName ++ "...")] ++ tCont
      ++ [.echoOut "Removing worktrees..."] ++ tWt
      ++ [.gitWorktreePrune, .echoOut "Done"], .ok)

/-! ### Trace-classification helpers -/

/-- Effects that only the image-build stage emits. -/
def is_build_eff : Eff → Bool
  | .echoOut _ => true
  | .echoErr _ => true
  | .dockerBuild _ => true
  | _ => false

/-- Effects the launch-parameter builder emits (build effects plus the
directive lines). -/
def is_launch_eff : Eff → Bool
  | .directive _ => true
  | e => is_build_eff e

theorem docker_container_rm_fst (env : Env) (nm : String) :
    (docker_container_rm env nm).1 = [.dockerRm nm] := by
  unfold docker_container_rm
  by_cases h : env.containerRmOk nm <;> simp [h]

theorem docker_container_rm_ok (env : Env) (nm : String) :
    (docker_container_rm env nm).2.1 = env.containerRmOk nm := by
  unfold docker_container_rm
  by_cases h : env.containerRmOk nm <;> simp [h]

theorem ensure_default_image_effs (env : Env) :
    ∀ e ∈ (ensure_default_image env).1, is_build_eff e = true := by
  intro e he
  unfold ensure_default_image at he
  by_cases h1 : env.defaultImageExists <;>
    by_cases h2 : env.defaultDockerfileExists <;>
    by_cases h3 : env.defaultBuildOk <;>
    simp only [h1, h2, h3, Bool.not_true, Bool.not_false, if_true, if_false,
      Bool.false_eq_true, List.mem_cons, List.not_mem_nil, or_false] at he <;>
    first
      | exact he.elim
      | (rcases he with rfl | rfl | rfl <;> rfl)
      | (rcases he with rfl | rfl <;> rfl)
      | (subst he; rfl)

theorem build_template_if_exists_effs (env : Env) (repoRoot : GitRoot) :
    ∀ e ∈ (build_template_if_exists env repoRoot).1, is_build_eff e = true := by
  intro e he
  unfold build_template_if_exists at he
  by_cases h1 : env.dockerfileSandboxExists
  · by_cases h2 : env.templateBuildOk <;>
      simp only [h1, h2, Bool.not_true, Bool.false_eq_true, if_false, if_true,
        List.mem_cons, List.not_mem_nil, or_false] at he <;>
      rcases he with rfl | rfl <;> rfl
  · simp only [h1, Bool.not_false, if_true] at he
    exact ensure_default_image_effs env e he

theorem build_template_if_exists_error (env : Env) (repoRoot : GitRoot) (tT : List Eff)
    (c : Nat) (h : build_template_if_exists env repoRoot = (tT, .error c)) : c = 1 := by
  unfold build_template_if_exists at h
  by_cases h1 : env.dockerfileSandboxExists
  · by_cases h2 : env.templateBuildOk <;> simp [h1, h2] at h
  · simp only [h1, Bool.not_false, if_true] at h
    unfold ensure_default_image at h
    by_cases h3 : env.defaultImageExists <;>
      by_cases h4 : env.defaultDockerfileExists <;>
      by_cases h5 : env.defaultBuildOk <;>
      simp [h3, h4, h5, Except.map] at h <;> omega

theorem run_sandbox_effs (env : Env) (name repoName mainGit worktreePath : String)
    (template : Option String) (resume : Bool) :
    ∀ e ∈ (run_sandbox env name repoName mainGit worktreePath template resume).1,
      is_launch_eff e = true := by
  intro e he
  unfold run_sandbox at he
  have hdef : ∀ e2 ∈ (ensure_default_image env).1, is_launch_eff e2 = true := by
    intro e2 he2
    have := ensure_default_image_effs env e2 he2
    cases e2 <;> simp [is_launch_eff] at this ⊢ <;> exact this
  cases template with
  | some t =>
    simp only at he
    by_cases hex : env.containerExists (sandbox_container_name repoName name)
    · simp only [hex, if_true] at he
      by_cases hrun : env.containerRunning (sandbox_container_name repoName name) <;>
        simp only [hrun, if_true, if_false, Bool.false_eq_true, List.nil_append,
          List.mem_cons, List.not_mem_nil, or_false] at he <;>
        rcases he with rfl | rfl | rfl | rfl <;> rfl
    · simp only [hex, Bool.false_eq_true, if_false] at he
      cases hp : find_available_ports env.portFree 3 49152 65535 with
      | nil => simp [hp] at he
      | cons p0 ps =>
        simp only [hp, List.nil_append, List.mem_cons, List.not_mem_nil, or_false] at he
        rcases he with rfl | rfl | rfl | rfl <;> rfl
  | none =>
    simp only at he
    cases hd : ensure_default_image env with
    | mk t r =>
      rw [hd] at he
      cases r with
      | error c =>
        simp only at he
        exact hdef e (by rw [hd]; exact he)
      | ok image =>
        simp only at he
        by_cases hex : env.containerExists (sandbox_container_name repoName name)
        · simp only [hex, if_true, List.mem_append] at he
          rcases he with he | he
          · exact hdef e (by rw [hd]; exact he)
          · by_cases hrun : env.containerRunning (sandbox_container_name repoName name) <;>
              simp only [hrun, if_true, if_false, Bool.false_eq_true, List.mem_cons,
                List.not_mem_nil, or_false] at he <;>
              rcases he with rfl | rfl | rfl | rfl <;> rfl
        · simp only [hex, Bool.false_eq_true, if_false] at he
          cases hp : find_available_ports env.portFree 3 49152 65535 with
          | nil =>
            simp only [hp] at he
            exact hdef e (by rw [hd]; exact he)
          | cons p0 ps =>
            simp only [hp, List.mem_append] at he
            rcases he with he | he
            · exact hdef e (by rw [hd]; exact he)
            · simp only [List.mem_cons, List.not_mem_nil, or_false] at he
              rcases he with rfl | rfl | rfl | rfl <;> rfl

theorem is_launch_of_build (e : Eff) (h : is_build_eff e = true) : is_launch_eff e = true := by
  cases e <;> simp [is_build_eff, is_launch_eff] at h ⊢ <;> exact h

/-- The template stage of `start` does not `sys.exit` iff a project
Dockerfile exists (its build failure merely yields `None`) or the default
image is obtainable. -/
def template_stage_ok (env : Env) : Bool :=
  env.dockerfileSandboxExists || env.defaultImageExists ||
    (env.defaultDockerfileExists && env.defaultBuildOk)

theorem build_template_ok_of_stage_ok (env : Env) (repoRoot : GitRoot)
    (h : template_stage_ok env = true) :
    ∃ tT tmpl, build_template_if_exists env repoRoot = (tT, .ok tmpl) := by
  cases hbt : build_template_if_exists env repoRoot with
  | mk tT res =>
    cases res with
    | ok tmpl => exact ⟨tT, tmpl, rfl⟩
    | error c =>
      exfalso
      unfold template_stage_ok at h
      unfold build_template_if_exists at hbt
      by_cases h1 : env.dockerfileSandboxExists
      · by_cases h2 : env.templateBuildOk <;> simp [h1, h2] at hbt
      · unfold ensure_default_image at hbt
        by_cases h3 : env.defaultImageExists
        · simp [h1, h3, Except.map] at hbt
        · by_cases h4 : env.defaultDockerfileExists <;>
            by_cases h5 : env.defaultBuildOk <;>
            simp [h1, h3, h4, h5, Except.map] at hbt h

/-- C1: with the worktree present and the container present, the resolver
chooses recreate regardless of any branch state; the `start` trace then
begins with the removal of the existing container (before any launch
directive), and contains no worktree operation at all. -/
theorem start_recreate_spec (env : Env) (name : String) (repoRoot : GitRoot)
    (hroot : env.repoRoot = some repoRoot)
    (hwt : env.pathExists (get_worktree_path repoRoot (safe_name name)) = true)
    (hct : env.containerExists (sandbox_container_name repoRoot.name (safe_name name)) = true) :
    (∀ lb rb, resolve_start true true lb rb = .recreate) ∧
    (∃ rest, (start env name).1
      = .dockerRm (sandbox_container_name repoRoot.name (safe_name name)) :: rest) ∧
    (∀ p b nb, Eff.gitWorktreeAdd p b nb ∉ (start env name).1) ∧
    (∀ p, Eff.gitWorktreeRemove p ∉ (start env name).1) := by
  have key : ∃ tail, (start env name).1
      = .dockerRm (sandbox_container_name repoRoot.name (safe_name name)) :: tail ∧
      ∀ e ∈ tail, is_launch_eff e = true := by
    unfold start
    rw [hroot]
    simp only [hwt, hct, Bool.and_self, if_true]
    cases hbt : build_template_if_exists
        (docker_container_rm env (sandbox_container_name repoRoot.name (safe_name name))).2.2
        repoRoot with
    | mk tT res =>
      cases res with
      | error c =>
        refine ⟨_, by rw [docker_container_rm_fst]; rfl, ?_⟩
        intro e he
        rcases List.mem_append.mp he with he | he
        · rcases List.mem_singleton.mp he with rfl
          rfl
        · exact is_launch_of_build e (build_template_if_exists_effs _ repoRoot e (by rw [hbt]; exact he))
      | ok tmpl =>
        refine ⟨_, by rw [docker_container_rm_fst]; rfl, ?_⟩
        intro e he
        rcases List.mem_append.mp he with he | he
        · rcases List.mem_append.mp he with he | he
          · rcases List.mem_singleton.mp he with rfl
            rfl
          · exact is_launch_of_build e
              (build_template_if_exists_effs _ repoRoot e (by rw [hbt]; exact he))
        · exact run_sandbox_effs _ _ _ _ _ _ _ e he
  obtain ⟨tail, htr, htail⟩ := key
  refine ⟨fun lb rb => rfl, ⟨tail, htr⟩, ?_, ?_⟩
  · intro p b nb hmem
    rw [htr] at hmem
    rcases List.mem_cons.mp hmem with h | h
    · exact Eff.noConfusion h
    · exact Bool.noConfusion (htail _ h)
  · intro p hmem
    rw [htr] at hmem
    rcases List.mem_cons.mp hmem with h | h
    · exact Eff.noConfusion h
    · exact Bool.noConfusion (htail _ h)

/-- Effects the first-time setup emits. -/
def is_setup_eff : Eff → Bool
  | .copyEnvFiles _ _ => true
  | .echoErr _ => true
  | .setupClaudeSettings _ => true
  | _ => false

theorem first_time_setup_effs (env : Env) (r : GitRoot) (w msg : String) :
    ∀ e ∈ first_time_setup env r w msg, is_setup_eff e = true := by
  intro e he
  unfold first_time_setup at he
  by_cases h : env.envFilesCopied = [] <;>
    simp only [h, ne_eq, not_true_eq_false, not_false_eq_true, if_true, if_false,
      List.nil_append, List.append_nil, List.cons_append, List.mem_cons,
      List.not_mem_nil, or_false] at he <;>
    first
      | (rcases he with rfl | rfl | rfl | rfl <;> rfl)
      | (rcases he with rfl | rfl | rfl <;> rfl)

theorem first_time_setup_copy_mem (env : Env) (r : GitRoot) (w msg : String) :
    Eff.copyEnvFiles r.path w ∈ first_time_setup env r w msg := by
  unfold first_time_setup
  simp

theorem first_time_setup_settings_mem (env : Env) (r : GitRoot) (w msg : String) :
    Eff.setupClaudeSettings w ∈ first_time_setup env r w msg := by
  unfold first_time_setup
  by_cases h : env.envFilesCopied = [] <;> simp [h]

/-- C2: with the worktree absent and a local branch named exactly `name`
present, the resolver chooses create-from-local-branch even when the remote
probe would succeed; the worktree is added for that branch without `-b`
(no new branch anywhere in the trace), first-time setup (`.env` copy and
settings merge) runs, and the remote-branch probe (with its fetch) and the
new-branch path are never reached. -/
theorem start_local_branch_spec (env : Env) (name : String) (repoRoot : GitRoot)
    (hroot : env.repoRoot = some repoRoot)
    (hwt : env.pathExists (get_worktree_path repoRoot (safe_name name)) = false)
    (hlb : env.localBranch name = true)
    (hrb : env.remoteBranch name = true)
    (hts : template_stage_ok env = true)
    (hadd : env.worktreeAddOk (get_worktree_path repoRoot (safe_name name)) name false = true) :
    resolve_start (env.pathExists (get_worktree_path repoRoot (safe_name name)))
        (env.containerExists (sandbox_container_name repoRoot.name (safe_name name)))
        (env.localBranch name) (env.remoteBranch name) = .createLocal ∧
    Eff.gitWorktreeAdd (get_worktree_path repoRoot (safe_name name)) name false
      ∈ (start env name).1 ∧
    Eff.copyEnvFiles repoRoot.path (get_worktree_path repoRoot (safe_name name))
      ∈ (start env name).1 ∧
    Eff.setupClaudeSettings (get_worktree_path repoRoot (safe_name name))
      ∈ (start env name).1 ∧
    (∀ p b, Eff.gitWorktreeAdd p b true ∉ (start env name).1) ∧
    Eff.gitFetch ∉ (start env name).1 := by
  obtain ⟨tT, tmpl, hbt⟩ := build_template_ok_of_stage_ok env repoRoot hts
  have htr : (start env name).1
      = tT ++ [.gitWorktreeAdd (get_worktree_path repoRoot (safe_name name)) name false]
        ++ first_time_setup env repoRoot (get_worktree_path repoRoot (safe_name name))
            ("Created sandbox from local branch: " ++ name)
        ++ (run_sandbox env (safe_name name) repoRoot.name (get_main_git_dir env repoRoot)
            (get_worktree_path repoRoot (safe_name name)) tmpl false).1 := by
    unfold start
    rw [hroot]
    simp only [hwt, hlb, Bool.false_and, Bool.false_eq_true, if_false, if_true, hbt, hadd]
  constructor
  · rw [hwt, hlb]
    rfl
  refine ⟨?_, ?_, ?_, ?_, ?_⟩
  · rw [htr]
    simp
  · rw [htr]
    have := first_time_setup_copy_mem env repoRoot
      (get_worktree_path repoRoot (safe_name name))
      ("Created sandbox from local branch: " ++ name)
    simp only [List.mem_append]
    exact Or.inl (Or.inr this)
  · rw [htr]
    have := first_time_setup_settings_mem env repoRoot
      (get_worktree_path repoRoot (safe_name name))
      ("Created sandbox from local branch: " ++ name)
    simp only [List.mem_append]
    exact Or.inl (Or.inr this)
  · intro p b hmem
    rw [htr] at hmem
    simp only [List.mem_append] at hmem
    rcases hmem with ((h | h) | h) | h
    · exact Bool.noConfusion (build_template_if_exists_effs env repoRoot _
        (by rw [hbt]; exact h))
    · rcases List.mem_singleton.mp h with h2
      exact Bool.noConfusion (Eff.gitWorktreeAdd.inj h2).2.2
    · exact Bool.noConfusion (first_time_setup_effs env repoRoot _ _ _ h)
    · exact Bool.noConfusion (run_sandbox_effs _ _ _ _ _ _ _ _ h)
  · intro hmem
    rw [htr] at hmem
    simp only [List.mem_append] at hmem
    rcases hmem with ((h | h) | h) | h
    · exact Bool.noConfusion (build_template_if_exists_effs env repoRoot _
        (by rw [hbt]; exact h))
    · exact Eff.noConfusion (List.mem_singleton.mp h)
    · exact Bool.noConfusion (first_time_setup_effs env repoRoot _ _ _ h)
    · exact Bool.noConfusion (run_sandbox_effs _ _ _ _ _ _ _ _ h)

/-- Effects an aborted worktree-creating run may contain: anything except a
launch directive and a worktree removal. -/
def is_abort_eff : Eff → Bool
  | .directive _ => false
  | .gitWorktreeRemove _ => false
  | _ => true

theorem is_abort_of_build (e : Eff) (h : is_build_eff e = true) : is_abort_eff e = true := by
  cases e <;> simp [is_build_eff, is_abort_eff] at h ⊢

/-- C3: in each of the three worktree-creating paths, a worktree-add
failure terminates the run with exit code 1, emits no launch directive
line, and attempts no worktree removal (no cleanup of the partial
worktree). -/
theorem start_add_failure_spec (env : Env) (name : String) (repoRoot : GitRoot)
    (hroot : env.repoRoot = some repoRoot)
    (hwt : env.pathExists (get_worktree_path repoRoot (safe_name name)) = false)
    (hf1 : env.worktreeAddOk (get_worktree_path repoRoot (safe_name name)) name false = false)
    (hf2 : env.worktreeAddOk (get_worktree_path repoRoot (safe_name name))
      ("task/" ++ name) true = false) :
    (start env name).2 = .exited 1 ∧
    (∀ line, Eff.directive line ∉ (start env name).1) ∧
    (∀ p, Eff.gitWorktreeRemove p ∉ (start env name).1) := by
  have key : (start env name).2 = .exited 1 ∧
      ∀ e ∈ (start env name).1, is_abort_eff e = true := by
    unfold start
    rw [hroot]
    simp only [hwt, Bool.false_and, Bool.false_eq_true, if_false]
    by_cases hl : env.localBranch name
    · simp only [hl, if_true]
      cases hbt : build_template_if_exists env repoRoot with
      | mk tT res =>
        cases res with
        | error c =>
          obtain rfl := build_template_if_exists_error env repoRoot tT c hbt
          exact ⟨rfl, fun e he => is_abort_of_build e
            (build_template_if_exists_effs env repoRoot e (by rw [hbt]; exact he))⟩
        | ok tmpl =>
          simp only [hf1, Bool.false_eq_true, if_false]
          refine ⟨by trivial, fun e he => ?_⟩
          rcases List.mem_append.mp he with h | h
          · exact is_abort_of_build e
              (build_template_if_exists_effs env repoRoot e (by rw [hbt]; exact h))
          · rcases List.mem_cons.mp h with rfl | h2
            · rfl
            · rcases List.mem_singleton.mp h2 with rfl
              rfl
    · simp only [hl, Bool.false_eq_true, if_false]
      by_cases hr : env.remoteBranch name
      · simp only [hr, if_true]
        cases hbt : build_template_if_exists env repoRoot with
        | mk tT res =>
          cases res with
          | error c =>
            obtain rfl := build_template_if_exists_error env repoRoot tT c hbt
            refine ⟨by trivial, fun e he => ?_⟩
            rcases List.mem_cons.mp he with rfl | h
            · rfl
            · exact is_abort_of_build e
                (build_template_if_exists_effs env repoRoot e (by rw [hbt]; exact h))
          | ok tmpl =>
            simp only [hf1, Bool.false_eq_true, if_false]
            refine ⟨by trivial, fun e he => ?_⟩
            rcases List.mem_append.mp he with h | h
            · rcases List.mem_cons.mp h with rfl | h2
              · rfl
              · exact is_abort_of_build e
                  (build_template_if_exists_effs env repoRoot e (by rw [hbt]; exact h2))
            · rcases List.mem_cons.mp h with rfl | h2
              · rfl
              · rcases List.mem_singleton.mp h2 with rfl
                rfl
      · simp only [hr, Bool.false_eq_true, if_false]
        cases hbt : build_template_if_exists env repoRoot with
        | mk tT res =>
          cases res with
          | error c =>
            obtain rfl := build_template_if_exists_error env repoRoot tT c hbt
            refine ⟨by trivial, fun e he => ?_⟩
            rcases List.mem_cons.mp he with rfl | h
            · rfl
            · exact is_abort_of_build e
                (build_template_if_exists_effs env repoRoot e (by rw [hbt]; exact h))
          | ok tmpl =>
            simp only [hf2, Bool.false_eq_true, if_false]
            refine ⟨by trivial, fun e he => ?_⟩
            rcases List.mem_append.mp he with h | h
            · rcases List.mem_cons.mp h with rfl | h2
              · rfl
              · exact is_abort_of_build e
                  (build_template_if_exists_effs env repoRoot e (by rw [hbt]; exact h2))
            · rcases List.mem_cons.mp h with rfl | h2
              · rfl
              · rcases List.mem_singleton.mp h2 with rfl
                rfl
  refine ⟨key.1, ?_, ?_⟩
  · intro line hmem
    exact Bool.noConfusion (key.2 _ hmem)
  · intro p hmem
    exact Bool.noConfusion (key.2 _ hmem)

/-- C4: inside a git repository, `rm` exits 1 exactly when both the
container removal and the worktree removal failed; both removals are always
attempted (each appears in the trace whatever the other's outcome). -/
theorem rm_spec (env : Env) (name : String) (repoRoot : GitRoot)
    (hroot : env.repoRoot = some repoRoot) :
    ((rm env name).2 = .exited 1 ↔
      (env.containerRmOk (sandbox_container_name repoRoot.name (safe_name name)) = false ∧
        env.worktreeRemoveOk (get_worktree_path repoRoot (safe_name name)) = false)) ∧
    Eff.dockerRm (sandbox_container_name repoRoot.name (safe_name name)) ∈ (rm env name).1 ∧
    Eff.gitWorktreeRemove (get_worktree_path repoRoot (safe_name name)) ∈ (rm env name).1 := by
  unfold rm
  rw [hroot]
  simp only
  rw [docker_container_rm_ok, docker_container_rm_fst]
  by_cases hc : env.containerRmOk (sandbox_container_name repoRoot.name (safe_name name)) <;>
    by_cases hw : env.worktreeRemoveOk (get_worktree_path repoRoot (safe_name name)) <;>
    simp only [hc, hw, Bool.not_true, Bool.not_false, Bool.and_self, Bool.false_and,
      Bool.and_false, Bool.true_and, Bool.and_true, Bool.false_eq_true, if_false, if_true]
  · constructor
    · simp
    · simp
  · constructor
    · simp
    · simp
  · constructor
    · simp
    · simp
  · constructor
    · simp
    · simp

/-- C5 amended: `purge` exits 0 (returns normally) in every state where
the invocation is inside a git repository; outside one it exits 1. -/
theorem purge_spec (env : Env) :
    (∀ repoRoot, env.repoRoot = some repoRoot → (purge env).2 = Outcome.ok) ∧
    (env.repoRoot = none → (purge env).2 = .exited 1) := by
  constructor
  · intro repoRoot hr
    unfold purge
    rw [hr]
  · intro hr
    unfold purge
    rw [hr]

/-! ### Concrete environments for witnesses and counterexamples -/

/-- A concrete baseline environment: every probe answers no, every list is
empty. -/
def env0 (root : Option GitRoot) : Env :=
  ⟨root, "", fun _ => false, fun _ => false, fun _ => false, fun _ => false,
    fun _ => false, fun _ => false, fun _ _ _ => false, fun _ => false,
    false, false, false, false, false, false, "", "",
    fun _ => false, [], [], [], false, false⟩

/-- C5 counterexample: invoked outside any git repository, `purge` exits 1,
not 0 — so it does not always exit 0. -/
theorem purge_nonzero_outside_repo :
    (purge (env0 none)).2 = .exited 1 ∧ (purge (env0 none)).2 ≠ Outcome.ok := by
  constructor
  · rfl
  · intro h
    exact Outcome.noConfusion h

/-- Witness for C5's amended claim at concrete environments. -/
theorem purge_spec_witness :
    (purge (env0 (some ⟨"/home/u/src", "myrepo"⟩))).2 = Outcome.ok ∧
    (purge (env0 none)).2 = .exited 1 :=
  ⟨(purge_spec (env0 (some ⟨"/home/u/src", "myrepo"⟩))).1 ⟨"/home/u/src", "myrepo"⟩ rfl,
    (purge_spec (env0 none)).2 rfl⟩

/-- Environment for the C1 witness: worktree and container both present. -/
def c1_env : Env :=
  { env0 (some ⟨"/home/u/src", "myrepo"⟩) with
    pathExists := fun _ => true,
    containerExists := fun _ => true }

/-- Witness for C1 at a concrete environment and name. -/
theorem start_recreate_spec_witness :
    (∀ lb rb, resolve_start true true lb rb = .recreate) ∧
    (∃ rest, (start c1_env "feature/x").1
      = .dockerRm (sandbox_container_name "myrepo" (safe_name "feature/x")) :: rest) ∧
    (∀ p b nb, Eff.gitWorktreeAdd p b nb ∉ (start c1_env "feature/x").1) ∧
    (∀ p, Eff.gitWorktreeRemove p ∉ (start c1_env "feature/x").1) :=
  start_recreate_spec c1_env "feature/x" ⟨"/home/u/src", "myrepo"⟩ rfl rfl rfl

/-- Environment for the C2 witness: no worktree, local and remote branch
both present, worktree add succeeds, default image available. -/
def c2_env : Env :=
  { env0 (some ⟨"/home/u/src", "myrepo"⟩) with
    localBranch := fun _ => true,
    remoteBranch := fun _ => true,
    worktreeAddOk := fun _ _ _ => true,
    defaultImageExists := true }

/-- Witness for C2 at a concrete environment and name. -/
theorem start_local_branch_spec_witness :
    resolve_start (c2_env.pathExists (get_worktree_path ⟨"/home/u/src", "myrepo"⟩
        (safe_name "feature/x")))
      (c2_env.containerExists (sandbox_container_name "myrepo" (safe_name "feature/x")))
      (c2_env.localBranch "feature/x") (c2_env.remoteBranch "feature/x") = .createLocal ∧
    Eff.gitWorktreeAdd (get_worktree_path ⟨"/home/u/src", "myrepo"⟩ (safe_name "feature/x"))
      "feature/x" false ∈ (start c2_env "feature/x").1 ∧
    Eff.copyEnvFiles (GitRoot.path ⟨"/home/u/src", "myrepo"⟩)
      (get_worktree_path ⟨"/home/u/src", "myrepo"⟩ (safe_name "feature/x"))
      ∈ (start c2_env "feature/x").1 ∧
    Eff.setupClaudeSettings (get_worktree_path ⟨"/home/u/src", "myrepo"⟩
      (safe_name "feature/x")) ∈ (start c2_env "feature/x").1 ∧
    (∀ p b, Eff.gitWorktreeAdd p b true ∉ (start c2_env "feature/x").1) ∧
    Eff.gitFetch ∉ (start c2_env "feature/x").1 :=
  start_local_branch_spec c2_env "feature/x" ⟨"/home/u/src", "myrepo"⟩
    rfl rfl rfl rfl rfl rfl

/-- Witness for C3 at a concrete environment (worktree absent, every
worktree add failing). -/
theorem start_add_failure_spec_witness :
    (start (env0 (some ⟨"/home/u/src", "myrepo"⟩)) "feature/x").2 = .exited 1 ∧
    (∀ line, Eff.directive line
      ∉ (start (env0 (some ⟨"/home/u/src", "myrepo"⟩)) "feature/x").1) ∧
    (∀ p, Eff.gitWorktreeRemove p
      ∉ (start (env0 (some ⟨"/home/u/src", "myrepo"⟩)) "feature/x").1) :=
  start_add_failure_spec (env0 (some ⟨"/home/u/src", "myrepo"⟩)) "feature/x"
    ⟨"/home/u/src", "myrepo"⟩ rfl rfl rfl rfl

/-- Witness for C4 at a concrete environment and name. -/
theorem rm_spec_witness :
    (((rm (env0 (some ⟨"/home/u/src", "myrepo"⟩)) "feature/x").2 = .exited 1 ↔
      ((env0 (some ⟨"/home/u/src", "myrepo"⟩)).containerRmOk
          (sandbox_container_name "myrepo" (safe_name "feature/x")) = false ∧
        (env0 (some ⟨"/home/u/src", "myrepo"⟩)).worktreeRemoveOk
          (get_worktree_path ⟨"/home/u/src", "myrepo"⟩ (safe_name "feature/x")) = false)) ∧
      Eff.dockerRm (sandbox_container_name "myrepo" (safe_name "feature/x"))
        ∈ (rm (env0 (some ⟨"/home/u/src", "myrepo"⟩)) "feature/x").1 ∧
      Eff.gitWorktreeRemove (get_worktree_path ⟨"/home/u/src", "myrepo"⟩
        (safe_name "feature/x"))
        ∈ (rm (env0 (some ⟨"/home/u/src", "myrepo"⟩)) "feature/x").1) :=
  rm_spec (env0 (some ⟨"/home/u/src", "myrepo"⟩)) "feature/x" ⟨"/home/u/src", "myrepo"⟩ rfl

/-! ## `merge_claude_settings` (heap level)

To settle the mutation/aliasing claims, the same function is embedded over
an explicit object heap: every Python object is a cell (an immutable atom,
a list of references, or a dict of references), `copy.deepcopy` is modelled
from its contract (containers are copied into fresh cells, atoms are
shared; the cycle/sharing memo is not modelled, which affects only internal
sharing of the copy, not the facts below), and each statement of the Python
function reads or mutates the heap exactly where it reads or mutates
objects.  A Python exception is `none`. -/

/-- A heap cell: an immutable atom, a Python list, or a string-keyed
Python dict (holding references). -/
inductive Node where
  | leaf (tag : Nat)
  | arr (elems : List Nat)
  | dict (fields : List (String × Nat))
deriving DecidableEq

/-- The references a cell holds. -/
def Node.addrs : Node → List Nat
  | .leaf _ => []
  | .arr es => es
  | .dict fs => fs.map Prod.snd

/-- A heap: an association of addresses to cells, plus the next fresh
address. -/
structure Heap where
  cells : List (Nat × Node)
  next : Nat
deriving DecidableEq

def hlookup : List (Nat × Node) → Nat → Option Node
  | [], _ => none
  | (a', n) :: rest, a => if a' = a then some n else hlookup rest a

def hupdate : List (Nat × Node) → Nat → Node → List (Nat × Node)
  | [], a, n => [(a, n)]
  | (a', n') :: rest, a, n =>
    if a' = a then (a, n) :: rest else (a', n') :: hupdate rest a n

def Heap.get (h : Heap) (a : Nat) : Option Node := hlookup h.cells a

def Heap.set (h : Heap) (a : Nat) (n : Node) : Heap := ⟨hupdate h.cells a n, h.next⟩

def Heap.alloc (h : Heap) (n : Node) : Heap × Nat :=
  (⟨(h.next, n) :: h.cells, h.next + 1⟩, h.next)

/-- Well-formed heap: every cell's address and every reference it holds
lie below `next`. -/
def Heap.wf (h : Heap) : Prop :=
  ∀ p ∈ h.cells, p.1 < h.next ∧ ∀ c ∈ p.2.addrs, c < h.next

instance (h : Heap) : Decidable h.wf := by
  unfold Heap.wf
  infer_instance

/-- `a` can reach `b` by following references. -/
inductive Reaches (h : Heap) : Nat → Nat → Prop where
  | refl (a : Nat) : Reaches h a a
  | step {a b c : Nat} {n : Node} :
      Reaches h a b → h.get b = some n → c ∈ n.addrs → Reaches h a c

/-- Dict lookup on reference-valued fields (first match). -/
def dlookupA : List (String × Nat) → String → Option Nat
  | [], _ => none
  | (k', v) :: rest, k => if k' = k then some v else dlookupA rest k

/-- Dict assignment on reference-valued fields (replace in place, else
append). -/
def dsetA : List (String × Nat) → String → Nat → List (String × Nat)
  | [], k, v => [(k, v)]
  | (k', v') :: rest, k, v =>
    if k' = k then (k, v) :: rest else (k', v') :: dsetA rest k v

/-- `copy.deepcopy` over a work list of roots: atoms are shared, lists and
dicts are copied bottom-up into fresh cells; `fuel` bounds the recursion
(`none` when exhausted or when a reference dangles). -/
def deepcopyN : Nat → Heap → List Nat → Option (Heap × List Nat)
  | 0, _, _ => none
  | _ + 1, h, [] => some (h, [])
  | fuel + 1, h, a :: rest =>
    match h.get a with
    | none => none
    | some (.leaf _) =>
      match deepcopyN fuel h rest with
      | none => none
      | some (h2, rs) => some (h2, a :: rs)
    | some (.arr es) =>
      match deepcopyN fuel h es with
      | none => none
      | some (h1, es') =>
        match deepcopyN fuel (h1.alloc (.arr es')).1 rest with
        | none => none
        | some (h2, rs) => some (h2, (h1.alloc (.arr es')).2 :: rs)
    | some (.dict fs) =>
      match deepcopyN fuel h (fs.map Prod.snd) with
      | none => none
      | some (h1, vs') =>
        match deepcopyN fuel (h1.alloc (.dict ((fs.map Prod.fst).zip vs'))).1 rest with
        | none => none
        | some (h2, rs) => some (h2, (h1.alloc (.dict ((fs.map Prod.fst).zip vs'))).2 :: rs)

/-- `copy.deepcopy` of one root. -/
def deepcopy1 (fuel : Nat) (h : Heap) (a : Nat) : Option (Heap × Nat) :=
  match deepcopyN fuel h [a] with
  | some (h1, [a']) => some (h1, a')
  | _ => none

/-- The loop `for event, hooks_list in sandbox["hooks"].items()`, over the
heap:  `result["hooks"][event].extend(hooks_list)` when the event is
present (requires both sides to be list cells), aliasing
`result["hooks"][event] = hooks_list` when absent. -/
def hooks_loop_heap : Heap → Nat → List (String × Nat) → Option Heap
  | h, _, [] => some h
  | h, result, (event, la) :: rest =>
    match h.get result with
    | some (.dict rd) =>
      match dlookupA rd "hooks" with
      | some rhAddr =>
        match h.get rhAddr with
        | some (.dict rhd) =>
          match dlookupA rhd event with
          | some target =>
            match h.get target, h.get la with
            | some (.arr telems), some (.arr selems) =>
              hooks_loop_heap (h.set target (.arr (telems ++ selems))) result rest
            | _, _ => none
          | none =>
            hooks_loop_heap (h.set rhAddr (.dict (dsetA rhd event la))) result rest
        | _ => none
      | none => none
    | _ => none

/-- The loop `for key, value in sandbox.items(): if key != "hooks":
result[key] = value` — aliasing the sandbox's values into the result. -/
def other_keys_heap : Heap → Nat → List (String × Nat) → Option (Heap × Nat)
  | h, result, [] => some (h, result)
  | h, result, (k, va) :: rest =>
    if k = "hooks" then other_keys_heap h result rest
    else
      match h.get result with
      | some (.dict rd) =>
        other_keys_heap (h.set result (.dict (dsetA rd k va))) result rest
      | _ => none

/-- `merge_claude_settings` over the heap.  `project` and `sandbox` are
dict cells (anything else raises in Python). -/
def heap_merge (fuel : Nat) (h : Heap) (project sandbox : Nat) : Option (Heap × Nat) :=
  match h.get project, h.get sandbox with
  | some (.dict _), some (.dict sd) =>
    match deepcopy1 fuel h project with
    | none => none
    | some (h1, result) =>
      match dlookupA sd "hooks" with
      | none => other_keys_heap h1 result sd
      | some shAddr =>
        match h1.get result with
        | some (.dict rd) =>
          let ens :=
            if (dlookupA rd "hooks").isSome then h1
            else (h1.alloc (.dict [])).1.set result
              (.dict (dsetA rd "hooks" (h1.alloc (.dict [])).2))
          match ens.get shAddr with
          | some (.dict shFields) =>
            match hooks_loop_heap ens result shFields with
            | none => none
            | some h3 => other_keys_heap h3 result sd
          | _ => none
        | _ => none
  | _, _ => none

/-! ### Basic heap lemmas -/

theorem hlookup_update (cells : List (Nat × Node)) (a : Nat) (n : Node) (a2 : Nat) :
    hlookup (hupdate cells a n) a2 = if a = a2 then some n else hlookup cells a2 := by
  induction cells with
  | nil => simp [hupdate, hlookup]
  | cons p rest ih =>
    obtain ⟨a', n'⟩ := p
    by_cases h1 : a' = a
    · subst h1
      simp only [hupdate, if_pos rfl, hlookup]
      by_cases h2 : a' = a2 <;> simp [h2]
    · simp only [hupdate, if_neg h1, hlookup]
      by_cases h2 : a' = a2
      · subst h2
        have : ¬ a = a' := fun h => h1 h.symm
        simp [this]
      · simp [h2, ih]

theorem Heap.get_set (h : Heap) (a : Nat) (n : Node) (a2 : Nat) :
    (h.set a n).get a2 = if a = a2 then some n else h.get a2 :=
  hlookup_update h.cells a n a2

theorem Heap.get_alloc (h : Heap) (n : Node) (a2 : Nat) :
    (h.alloc n).1.get a2 = if h.next = a2 then some n else h.get a2 := by
  simp only [Heap.alloc, Heap.get, hlookup]

theorem hlookup_mem (cells : List (Nat × Node)) (a : Nat) (n : Node)
    (h : hlookup cells a = some n) : (a, n) ∈ cells := by
  induction cells with
  | nil => simp [hlookup] at h
  | cons p rest ih =>
    obtain ⟨a', n'⟩ := p
    by_cases h1 : a' = a
    · subst h1
      simp only [hlookup, if_pos rfl] at h
      obtain rfl := Option.some.inj h
      exact List.mem_cons_self _ _
    · simp only [hlookup, if_neg h1] at h
      exact List.mem_cons_of_mem _ (ih h)

theorem Heap.wf_get (h : Heap) (hwf : h.wf) (a : Nat) (n : Node)
    (hg : h.get a = some n) : a < h.next ∧ ∀ c ∈ n.addrs, c < h.next :=
  hwf (a, n) (hlookup_mem h.cells a n hg)

theorem reaches_lt (h : Heap) (hwf : h.wf) (x a : Nat) (hx : x < h.next)
    (hr : Reaches h x a) : a < h.next := by
  induction hr with
  | refl => exact hx
  | step _ hget hc ih =>
    exact (h.wf_get hwf _ _ hget).2 _ hc

theorem hupdate_cons_eq (a' : Nat) (n' : Node) (rest : List (Nat × Node)) (a : Nat)
    (n : Node) (h : a' = a) : hupdate ((a', n') :: rest) a n = (a, n) :: rest := by
  simp [hupdate, h]

theorem hupdate_cons_ne (a' : Nat) (n' : Node) (rest : List (Nat × Node)) (a : Nat)
    (n : Node) (h : a' ≠ a) :
    hupdate ((a', n') :: rest) a n = (a', n') :: hupdate rest a n := by
  simp [hupdate, h]

theorem hupdate_mem (cells : List (Nat × Node)) (a : Nat) (n : Node) :
    ∀ p ∈ hupdate cells a n, p = (a, n) ∨ p ∈ cells := by
  induction cells with
  | nil => intro p hp; simp [hupdate] at hp; exact Or.inl hp
  | cons q rest ih =>
    obtain ⟨a', n'⟩ := q
    intro p hp
    by_cases h1 : a' = a
    · rw [hupdate_cons_eq a' n' rest a n h1] at hp
      rcases List.mem_cons.mp hp with h | hp2
      · exact Or.inl h
      · exact Or.inr (List.mem_cons_of_mem _ hp2)
    · rw [hupdate_cons_ne a' n' rest a n h1] at hp
      rcases List.mem_cons.mp hp with h | hp2
      · exact Or.inr (h ▸ List.mem_cons_self _ _)
      · rcases ih p hp2 with h | h
        · exact Or.inl h
        · exact Or.inr (List.mem_cons_of_mem _ h)

theorem Heap.wf_set (h : Heap) (a : Nat) (n : Node) (hwf : h.wf)
    (ha : a < h.next) (hn : ∀ c ∈ n.addrs, c < h.next) : (h.set a n).wf := by
  intro p hp
  rcases hupdate_mem h.cells a n p hp with rfl | hp
  · exact ⟨ha, hn⟩
  · exact hwf p hp

theorem Heap.wf_alloc (h : Heap) (n : Node) (hwf : h.wf)
    (hn : ∀ c ∈ n.addrs, c < h.next) : (h.alloc n).1.wf := by
  intro p hp
  simp only [Heap.alloc, List.mem_cons] at hp
  rcases hp with rfl | hp
  · exact ⟨Nat.lt_succ_self _, fun c hc => Nat.lt_succ_of_lt (hn c hc)⟩
  · obtain ⟨h1, h2⟩ := hwf p hp
    exact ⟨Nat.lt_succ_of_lt h1, fun c hc => Nat.lt_succ_of_lt (h2 c hc)⟩

theorem dlookupA_dsetA (d : List (String × Nat)) (k : String) (v : Nat) (k2 : String) :
    dlookupA (dsetA d k v) k2 = if k = k2 then some v else dlookupA d k2 := by
  induction d with
  | nil => simp [dsetA, dlookupA]
  | cons p rest ih =>
    obtain ⟨k', v'⟩ := p
    by_cases h1 : k' = k
    · subst h1
      simp only [dsetA, if_pos rfl, dlookupA]
      by_cases h2 : k' = k2 <;> simp [h2]
    · simp only [dsetA, if_neg h1, dlookupA]
      by_cases h2 : k' = k2
      · subst h2
        have : ¬ k = k' := fun h => h1 h.symm
        simp [this]
      · simp [h2, ih]

theorem dsetA_snd_mem (d : List (String × Nat)) (k : String) (v : Nat) :
    ∀ x ∈ (dsetA d k v).map Prod.snd, x ∈ d.map Prod.snd ∨ x = v := by
  induction d with
  | nil => intro x hx; simp [dsetA] at hx; exact Or.inr hx
  | cons p rest ih =>
    obtain ⟨k', v'⟩ := p
    intro x hx
    by_cases h1 : k' = k
    · rw [show dsetA ((k', v') :: rest) k v = (k, v) :: rest from by simp [dsetA, h1]] at hx
      simp only [List.map_cons, List.mem_cons] at hx
      rcases hx with h | hx2
      · exact Or.inr h
      · exact Or.inl (by simp only [List.map_cons, List.mem_cons]; exact Or.inr hx2)
    · rw [show dsetA ((k', v') :: rest) k v = (k', v') :: dsetA rest k v from by
        simp [dsetA, h1]] at hx
      simp only [List.map_cons, List.mem_cons] at hx
      rcases hx with h | hx2
      · exact Or.inl (by simp only [List.map_cons, List.mem_cons]; exact Or.inl h)
      · rcases ih x hx2 with h | h
        · exact Or.inl (by simp only [List.map_cons, List.mem_cons]; exact Or.inr h)
        · exact Or.inr h

theorem dlookupA_snd_mem (d : List (String × Nat)) (k : String) (v : Nat)
    (h : dlookupA d k = some v) : v ∈ d.map Prod.snd := by
  induction d with
  | nil => simp [dlookupA] at h
  | cons p rest ih =>
    obtain ⟨k', v'⟩ := p
    by_cases h1 : k' = k
    · subst h1
      simp only [dlookupA, if_pos rfl] at h
      obtain rfl := Option.some.inj h
      simp
    · simp only [dlookupA, if_neg h1] at h
      simp only [List.map_cons, List.mem_cons]
      exact Or.inr (ih h)

/-! ### The copy phase: allocation-only heap growth -/

/-- One allocation-only phase over the heap, relative to the baseline `N`:
the old cells are untouched, no fresh cell is an atom, and every fresh
cell's references point strictly downwards, to fresh cells or to old
atoms. -/
def MStep (N : Nat) (h h' : Heap) : Prop :=
  h.next ≤ h'.next ∧
  (∀ a, a < h.next → h'.get a = h.get a) ∧
  (∀ b tag, h.next ≤ b → h'.get b ≠ some (.leaf tag)) ∧
  (∀ b n, h.next ≤ b → h'.get b = some n →
    ∀ c ∈ n.addrs, c < b ∧ (c < N → ∃ tag, h'.get c = some (.leaf tag)))

theorem heap_get_none_of_ge (h : Heap) (hwf : h.wf) (b : Nat) (hb : h.next ≤ b) :
    h.get b = none := by
  cases hg : h.get b with
  | none => rfl
  | some n =>
    have := (h.wf_get hwf b n hg).1
    omega

theorem MStep.rfl_of_wf (N : Nat) (h : Heap) (hwf : h.wf) : MStep N h h := by
  refine ⟨Nat.le_refl _, fun _ _ => rfl, ?_, ?_⟩
  · intro b tag hb
    rw [heap_get_none_of_ge h hwf b hb]
    exact Option.noConfusion
  · intro b n hb hg
    rw [heap_get_none_of_ge h hwf b hb] at hg
    exact Option.noConfusion hg

theorem MStep.trans2 (N : Nat) (h1 h2 h3 : Heap) (hN : N ≤ h1.next)
    (m1 : MStep N h1 h2) (m2 : MStep N h2 h3) : MStep N h1 h3 := by
  obtain ⟨mn1, mf1, ml1, mc1⟩ := m1
  obtain ⟨mn2, mf2, ml2, mc2⟩ := m2
  refine ⟨Nat.le_trans mn1 mn2, ?_, ?_, ?_⟩
  · intro a ha
    rw [mf2 a (Nat.lt_of_lt_of_le ha mn1), mf1 a ha]
  · intro b tag hb hg
    by_cases hb2 : b < h2.next
    · rw [mf2 b hb2] at hg
      exact ml1 b tag hb hg
    · exact ml2 b tag (Nat.le_of_not_lt hb2) hg
  · intro b n hb hg c hc
    by_cases hb2 : b < h2.next
    · rw [mf2 b hb2] at hg
      obtain ⟨h1c, h2c⟩ := mc1 b n hb hg c hc
      refine ⟨h1c, fun hcN => ?_⟩
      obtain ⟨tag, htag⟩ := h2c hcN
      exact ⟨tag, by rw [mf2 c (by omega), htag]⟩
    · exact mc2 b n (Nat.le_of_not_lt hb2) hg c hc

theorem MStep.mono (N N2 : Nat) (h h' : Heap) (hle : N2 ≤ N) (m : MStep N h h') :
    MStep N2 h h' := by
  obtain ⟨mn, mf, ml, mc⟩ := m
  refine ⟨mn, mf, ml, ?_⟩
  intro b n hb hg c hc
  obtain ⟨h1c, h2c⟩ := mc b n hb hg c hc
  exact ⟨h1c, fun hcN => h2c (by omega)⟩

theorem MStep.alloc_node (N : Nat) (h : Heap) (n : Node) (hwf : h.wf)
    (hnl : ∀ tag, n ≠ .leaf tag)
    (hch : ∀ c ∈ n.addrs, c < h.next ∧ (c < N → ∃ tag, h.get c = some (.leaf tag))) :
    MStep N h (h.alloc n).1 := by
  have hget : ∀ a2, (h.alloc n).1.get a2 = if h.next = a2 then some n else h.get a2 :=
    Heap.get_alloc h n
  refine ⟨?_, ?_, ?_, ?_⟩
  · simp [Heap.alloc]
  · intro a ha
    rw [hget a, if_neg (by omega)]
  · intro b tag hb hg
    rw [hget b] at hg
    by_cases hbn : h.next = b
    · rw [if_pos hbn] at hg
      exact hnl tag (Option.some.inj hg)
    · rw [if_neg hbn] at hg
      rw [heap_get_none_of_ge h hwf b hb] at hg
      exact Option.noConfusion hg
  · intro b m hb hg c hc
    rw [hget b] at hg
    by_cases hbn : h.next = b
    · rw [if_pos hbn] at hg
      obtain rfl := Option.some.inj hg
      obtain ⟨h1c, h2c⟩ := hch c hc
      refine ⟨by omega, fun hcN => ?_⟩
      obtain ⟨tag, htag⟩ := h2c hcN
      exact ⟨tag, by rw [hget c, if_neg (by omega), htag]⟩
    · rw [if_neg hbn] at hg
      rw [heap_get_none_of_ge h hwf b hb] at hg
      exact Option.noConfusion hg

theorem forall₂_mem_right {R : Nat → Nat → Prop} :
    ∀ {l1 l2 : List Nat}, List.Forall₂ R l1 l2 → ∀ c ∈ l2, ∃ a ∈ l1, R a c := by
  intro l1 l2 hf
  induction hf with
  | nil => intro c hc; exact absurd hc (List.not_mem_nil c)
  | cons hR _ ih =>
    intro c hc
    rcases List.mem_cons.mp hc with rfl | hc
    · exact ⟨_, List.mem_cons_self _ _, hR⟩
    · obtain ⟨a, ha, hr⟩ := ih c hc
      exact ⟨a, List.mem_cons_of_mem _ ha, hr⟩

theorem zip_map_snd : ∀ (l1 : List String) (l2 : List Nat), l1.length = l2.length →
    (l1.zip l2).map Prod.snd = l2 := by
  intro l1
  induction l1 with
  | nil =>
    intro l2 h
    cases l2 with
    | nil => rfl
    | cons x xs => simp at h
  | cons k ks ih =>
    intro l2 h
    cases l2 with
    | nil => simp at h
    | cons x xs =>
      simp only [List.zip_cons_cons, List.map_cons]
      rw [ih xs (by simpa using h)]

/-- Full specification of one `deepcopyN` run: an allocation-only phase,
well-formedness preserved, outputs bounded, and each output either the
shared original atom or a fresh cell. -/
def DCSpec (h h' : Heap) (roots outs : List Nat) : Prop :=
  MStep h.next h h' ∧ h'.wf ∧ (∀ o ∈ outs, o < h'.next) ∧
  List.Forall₂ (fun a o => (∃ tag, h.get a = some (.leaf tag) ∧ o = a) ∨ h.next ≤ o)
    roots outs

theorem DCSpec.step (h h1 h2 : Heap) (children outs1 rest rs : List Nat) (n : Node)
    (a : Nat) (s1 : DCSpec h h1 children outs1) (haddr : n.addrs = outs1)
    (hnl : ∀ tag, n ≠ .leaf tag) (s2 : DCSpec (h1.alloc n).1 h2 rest rs) :
    DCSpec h h2 (a :: rest) (h1.next :: rs) := by
  obtain ⟨m1, wf1, bd1, f1⟩ := s1
  have hch : ∀ c ∈ n.addrs, c < h1.next ∧ (c < h.next → ∃ tag, h1.get c = some (.leaf tag)) := by
    rw [haddr]
    intro c hc
    refine ⟨bd1 c hc, fun hcN => ?_⟩
    obtain ⟨a', ha', hr⟩ := forall₂_mem_right f1 c hc
    rcases hr with ⟨tag, hga, rfl⟩ | hge
    · exact ⟨tag, by rw [m1.2.1 c hcN]; exact hga⟩
    · omega
  have malloc := MStep.alloc_node h.next h1 n wf1 hnl hch
  have wf1a : (h1.alloc n).1.wf := Heap.wf_alloc h1 n wf1 (fun c hc => (hch c hc).1)
  obtain ⟨m2, wf2, bd2, f2⟩ := s2
  have hnn : h.next ≤ h1.next := m1.1
  have m12 : MStep h.next h (h1.alloc n).1 :=
    MStep.trans2 _ _ _ _ (Nat.le_refl _) m1 malloc
  have hna : h1.next < (h1.alloc n).1.next := by simp [Heap.alloc]
  have m2' : MStep h.next (h1.alloc n).1 h2 := MStep.mono _ _ _ _ (by omega) m2
  have mAll : MStep h.next h h2 := MStep.trans2 _ _ _ _ (Nat.le_refl _) m12 m2'
  refine ⟨mAll, wf2, ?_, ?_⟩
  · intro o ho
    rcases List.mem_cons.mp ho with rfl | ho
    · have h2n : (h1.alloc n).1.next ≤ h2.next := m2.1
      omega
    · exact bd2 o ho
  · refine List.Forall₂.cons (Or.inr hnn) ?_
    refine List.Forall₂.imp ?_ f2
    intro a' o hr
    rcases hr with ⟨tag, hga, hoa⟩ | hge
    · by_cases ha' : a' < h.next
      · exact Or.inl ⟨tag, by rw [← m12.2.1 a' ha']; exact hga, hoa⟩
      · exact absurd hga (m12.2.2.1 a' tag (Nat.le_of_not_lt ha'))
    · have : h.next ≤ (h1.alloc n).1.next := m12.1
      exact Or.inr (by omega)

theorem deepcopyN_spec :
    ∀ (fuel : Nat) (roots : List Nat) (h h' : Heap) (outs : List Nat),
      deepcopyN fuel h roots = some (h', outs) → h.wf → DCSpec h h' roots outs := by
  intro fuel
  induction fuel with
  | zero =>
    intro roots h h' outs hrun
    simp [deepcopyN] at hrun
  | succ fuel ihf =>
    intro roots h h' outs hrun hwf
    cases roots with
    | nil =>
      simp only [deepcopyN, Option.some.injEq, Prod.mk.injEq] at hrun
      obtain ⟨rfl, rfl⟩ := hrun
      exact ⟨MStep.rfl_of_wf _ h hwf, hwf, by simp, List.Forall₂.nil⟩
    | cons a rest =>
      unfold deepcopyN at hrun
      split at hrun
      · exact Option.noConfusion hrun
      · -- leaf: shared
        rename_i t heq
        split at hrun
        · exact Option.noConfusion hrun
        · rename_i h2 rs heqr
          simp only [Option.some.injEq, Prod.mk.injEq] at hrun
          obtain ⟨rfl, rfl⟩ := hrun
          obtain ⟨m, wfr, bd, f⟩ := ihf rest _ _ _ heqr hwf
          refine ⟨m, wfr, ?_, ?_⟩
          · intro o ho
            rcases List.mem_cons.mp ho with rfl | ho
            · have hb1 : o < h.next := (h.wf_get hwf o _ heq).1
              have hb2 := m.1
              omega
            · exact bd o ho
          · exact List.Forall₂.cons (Or.inl ⟨t, heq, rfl⟩) f
      · -- array: copy elements, allocate a fresh cell
        rename_i es heq
        split at hrun
        · exact Option.noConfusion hrun
        · rename_i h1 es' heqc
          split at hrun
          · exact Option.noConfusion hrun
          · rename_i h2 rs heqr
            simp only [Option.some.injEq, Prod.mk.injEq] at hrun
            obtain ⟨rfl, rfl⟩ := hrun
            have s1 := ihf es h h1 es' heqc hwf
            have wf1a : (h1.alloc (.arr es')).1.wf :=
              Heap.wf_alloc h1 _ s1.2.1 (by
                intro c hc
                exact s1.2.2.1 c (by simpa [Node.addrs] using hc))
            have s2 := ihf rest _ _ _ heqr wf1a
            exact DCSpec.step h h1 h2 es es' rest rs (.arr es') a s1 rfl
              (fun tag => Node.noConfusion) s2
      · -- dict: copy values, allocate a fresh cell with the same keys
        rename_i fs heq
        split at hrun
        · exact Option.noConfusion hrun
        · rename_i h1 vs' heqc
          split at hrun
          · exact Option.noConfusion hrun
          · rename_i h2 rs heqr
            simp only [Option.some.injEq, Prod.mk.injEq] at hrun
            obtain ⟨rfl, rfl⟩ := hrun
            have s1 := ihf (fs.map Prod.snd) h h1 vs' heqc hwf
            have haddr : (Node.dict ((fs.map Prod.fst).zip vs')).addrs = vs' := by
              have hlen : (fs.map Prod.fst).length = vs'.length := by
                have := List.Forall₂.length_eq s1.2.2.2
                simpa using this
              simpa [Node.addrs] using zip_map_snd (fs.map Prod.fst) vs' hlen
            have wf1a : (h1.alloc (.dict ((fs.map Prod.fst).zip vs'))).1.wf :=
              Heap.wf_alloc h1 _ s1.2.1 (by
                intro c hc
                rw [haddr] at hc
                exact s1.2.2.1 c hc)
            have s2 := ihf rest _ _ _ heqr wf1a
            exact DCSpec.step h h1 h2 (fs.map Prod.snd) vs' rest rs
              (.dict ((fs.map Prod.fst).zip vs')) a s1 haddr
              (fun tag => Node.noConfusion) s2

/-! ### The mutation phase: every written cell is fresh -/

/-- Invariant of the merge's mutation phases, relative to the original heap
`h0`: old cells are untouched, and every fresh cell references only fresh
cells, old atoms, or sandbox-reachable cells. -/
def LInv (h0 : Heap) (sandbox : Nat) (h : Heap) : Prop :=
  h0.next ≤ h.next ∧
  (∀ a, a < h0.next → h.get a = h0.get a) ∧
  (∀ b n, h0.next ≤ b → h.get b = some n →
    ∀ c ∈ n.addrs, h0.next ≤ c ∨ (∃ tag, h0.get c = some (.leaf tag)) ∨
      Reaches h0 sandbox c)

theorem LInv.of_MStep (h0 h1 : Heap) (s : Nat) (m : MStep h0.next h0 h1) :
    LInv h0 s h1 := by
  refine ⟨m.1, m.2.1, ?_⟩
  intro b n hb hg c hc
  obtain ⟨_, h2c⟩ := m.2.2.2 b n hb hg c hc
  by_cases hcn : c < h0.next
  · obtain ⟨tag, htag⟩ := h2c hcn
    rw [m.2.1 c hcn] at htag
    exact Or.inr (Or.inl ⟨tag, htag⟩)
  · exact Or.inl (Nat.le_of_not_lt hcn)

theorem LInv.set (h0 : Heap) (s : Nat) (h : Heap) (inv : LInv h0 s h) (b : Nat) (n : Node)
    (hb : h0.next ≤ b)
    (hch : ∀ c ∈ n.addrs, h0.next ≤ c ∨ (∃ tag, h0.get c = some (.leaf tag)) ∨
      Reaches h0 s c) :
    LInv h0 s (h.set b n) := by
  refine ⟨inv.1, ?_, ?_⟩
  · intro a ha
    rw [Heap.get_set, if_neg (by omega)]
    exact inv.2.1 a ha
  · intro b2 n2 hb2 hg c hc
    rw [Heap.get_set] at hg
    by_cases hbb : b = b2
    · rw [if_pos hbb] at hg
      obtain rfl := Option.some.inj hg
      exact hch c hc
    · rw [if_neg hbb] at hg
      exact inv.2.2 b2 n2 hb2 hg c hc

theorem LInv.alloc (h0 : Heap) (s : Nat) (h : Heap) (inv : LInv h0 s h) (n : Node)
    (hch : ∀ c ∈ n.addrs, h0.next ≤ c ∨ (∃ tag, h0.get c = some (.leaf tag)) ∨
      Reaches h0 s c) :
    LInv h0 s (h.alloc n).1 := by
  have hn : h0.next ≤ h.next := inv.1
  refine ⟨by simp [Heap.alloc]; omega, ?_, ?_⟩
  · intro a ha
    rw [Heap.get_alloc, if_neg (by omega)]
    exact inv.2.1 a ha
  · intro b2 n2 hb2 hg c hc
    rw [Heap.get_alloc] at hg
    by_cases hbb : h.next = b2
    · rw [if_pos hbb] at hg
      obtain rfl := Option.some.inj hg
      exact hch c hc
    · rw [if_neg hbb] at hg
      exact inv.2.2 b2 n2 hb2 hg c hc

/-- The heap-level hooks loop keeps the invariant: it only writes to the
fresh result-hooks dict and to fresh hook lists, extending them with
sandbox-owned references. -/
theorem hooks_loop_heap_spec (h0 : Heap) (sandbox : Nat) (hwf0 : h0.wf)
    (hsb : sandbox < h0.next) :
    ∀ (entries : List (String × Nat)) (h : Heap) (result rhAddr : Nat) (h' : Heap),
      hooks_loop_heap h result entries = some h' →
      (entries.map Prod.fst).Nodup →
      (∀ p ∈ entries, Reaches h0 sandbox p.2) →
      LInv h0 sandbox h →
      h0.next ≤ result →
      h0.next ≤ rhAddr →
      rhAddr ≠ result →
      (∃ rd, h.get result = some (.dict rd) ∧ dlookupA rd "hooks" = some rhAddr) →
      (∃ rhd, h.get rhAddr = some (.dict rhd) ∧
        (∀ e ∈ entries.map Prod.fst, ∀ t, dlookupA rhd e = some t →
          h0.next ≤ t ∨ ∃ tag, h0.get t = some (.leaf tag))) →
      LInv h0 sandbox h' := by
  intro entries
  induction entries with
  | nil =>
    intro h result rhAddr h' hrun _ _ inv _ _ _ _ _
    simp only [hooks_loop_heap, Option.some.injEq] at hrun
    exact hrun ▸ inv
  | cons p rest ih =>
    obtain ⟨event, la⟩ := p
    intro h result rhAddr h' hrun hnd hreach inv hres hrh hne hresd hrhd
    obtain ⟨rd, hrd1, hrd2⟩ := hresd
    obtain ⟨rhd, hrh1, hrh2⟩ := hrhd
    have hlaR : Reaches h0 sandbox la := hreach (event, la) (List.mem_cons_self _ _)
    have hlaLt : la < h0.next := reaches_lt h0 hwf0 sandbox la hsb hlaR
    simp only [List.map_cons, List.nodup_cons] at hnd
    unfold hooks_loop_heap at hrun
    simp only [hrd1, hrd2, hrh1] at hrun
    cases hlk : dlookupA rhd event with
    | some target =>
      simp only [hlk] at hrun
      split at hrun
      · rename_i telems selems heqt heql
        -- the extended list is a fresh cell
        have htcl := hrh2 event (by simp) target hlk
        have htfresh : h0.next ≤ target := by
          rcases htcl with h1 | ⟨tag, htag⟩
          · exact h1
          · exfalso
            have htlt : target < h0.next := (h0.wf_get hwf0 target _ htag).1
            rw [inv.2.1 target htlt, htag] at heqt
            exact Node.noConfusion (Option.some.inj heqt)
        have hglah : h0.get la = some (.arr selems) := by
          rw [← inv.2.1 la hlaLt]
          exact heql
        have hch : ∀ c ∈ (Node.arr (telems ++ selems)).addrs,
            h0.next ≤ c ∨ (∃ tag, h0.get c = some (.leaf tag)) ∨
              Reaches h0 sandbox c := by
          intro c hc
          rcases List.mem_append.mp (by simpa [Node.addrs] using hc) with hc | hc
          · exact inv.2.2 target _ htfresh heqt c (by simpa [Node.addrs] using hc)
          · exact Or.inr (Or.inr (Reaches.step hlaR hglah (by simpa [Node.addrs] using hc)))
        have inv2 := LInv.set h0 sandbox h inv target _ htfresh hch
        have htne_res : target ≠ result := by
          intro he
          rw [he, hrd1] at heqt
          exact Node.noConfusion (Option.some.inj heqt)
        have htne_rh : target ≠ rhAddr := by
          intro he
          rw [he, hrh1] at heqt
          exact Node.noConfusion (Option.some.inj heqt)
        refine ih _ _ _ _ hrun hnd.2
          (fun q hq => hreach q (List.mem_cons_of_mem _ hq)) inv2 hres hrh hne ?_ ?_
        · exact ⟨rd, by rw [Heap.get_set, if_neg htne_res]; exact hrd1, hrd2⟩
        · refine ⟨rhd, by rw [Heap.get_set, if_neg htne_rh]; exact hrh1, ?_⟩
          intro e he t ht
          exact hrh2 e (by rw [List.map_cons]; exact List.mem_cons_of_mem _ he) t ht
      · exact Option.noConfusion hrun
    | none =>
      simp only [hlk] at hrun
      have hch : ∀ c ∈ (Node.dict (dsetA rhd event la)).addrs,
          h0.next ≤ c ∨ (∃ tag, h0.get c = some (.leaf tag)) ∨ Reaches h0 sandbox c := by
        intro c hc
        rcases dsetA_snd_mem rhd event la c (by simpa [Node.addrs] using hc) with hc | hc
        · exact inv.2.2 rhAddr _ hrh hrh1 c (by simpa [Node.addrs] using hc)
        · exact hc ▸ Or.inr (Or.inr hlaR)
      have inv2 := LInv.set h0 sandbox h inv rhAddr _ hrh hch
      refine ih _ _ _ _ hrun hnd.2
        (fun q hq => hreach q (List.mem_cons_of_mem _ hq)) inv2 hres hrh hne ?_ ?_
      · exact ⟨rd, by rw [Heap.get_set, if_neg hne]; exact hrd1, hrd2⟩
      · refine ⟨dsetA rhd event la, by rw [Heap.get_set, if_pos rfl], ?_⟩
        intro e he t ht
        rw [dlookupA_dsetA] at ht
        have hev : event ≠ e := by
          intro hev
          exact hnd.1 (hev ▸ he)
        rw [if_neg hev] at ht
        exact hrh2 e (by rw [List.map_cons]; exact List.mem_cons_of_mem _ he) t ht

/-- The heap-level non-`hooks` loop keeps the invariant: it only rewrites
the fresh result cell, adding sandbox-owned references. -/
theorem other_keys_heap_spec (h0 : Heap) (sandbox : Nat) :
    ∀ (entries : List (String × Nat)) (h : Heap) (result : Nat) (h' : Heap) (r2 : Nat),
      other_keys_heap h result entries = some (h', r2) →
      (∀ p ∈ entries, Reaches h0 sandbox p.2) →
      LInv h0 sandbox h →
      h0.next ≤ result →
      LInv h0 sandbox h' ∧ r2 = result := by
  intro entries
  induction entries with
  | nil =>
    intro h result h' r2 hrun _ inv _
    simp only [other_keys_heap, Option.some.injEq, Prod.mk.injEq] at hrun
    exact ⟨hrun.1 ▸ inv, hrun.2.symm⟩
  | cons p rest ih =>
    obtain ⟨k, va⟩ := p
    intro h result h' r2 hrun hreach inv hres
    unfold other_keys_heap at hrun
    by_cases hk : k = "hooks"
    · rw [if_pos hk] at hrun
      exact ih _ _ _ _ hrun (fun q hq => hreach q (List.mem_cons_of_mem _ hq)) inv hres
    · rw [if_neg hk] at hrun
      split at hrun
      · rename_i rd hgr
        have hch : ∀ c ∈ (Node.dict (dsetA rd k va)).addrs,
            h0.next ≤ c ∨ (∃ tag, h0.get c = some (.leaf tag)) ∨ Reaches h0 sandbox c := by
          intro c hc
          rcases dsetA_snd_mem rd k va c (by simpa [Node.addrs] using hc) with hc | hc
          · exact inv.2.2 result _ hres hgr c (by simpa [Node.addrs] using hc)
          · exact hc ▸ Or.inr (Or.inr (hreach (k, va) (List.mem_cons_self _ _)))
        have inv2 := LInv.set h0 sandbox h inv result _ hres hch
        exact ih _ _ _ _ hrun (fun q hq => hreach q (List.mem_cons_of_mem _ hq)) inv2 hres
      · exact Option.noConfusion hrun

theorem deepcopy1_spec (fuel : Nat) (h : Heap) (a : Nat) (h1 : Heap) (r : Nat)
    (hrun : deepcopy1 fuel h a = some (h1, r)) (hwf : h.wf) :
    MStep h.next h h1 ∧ h1.wf ∧ r < h1.next ∧
      ((∃ tag, h.get a = some (.leaf tag) ∧ r = a) ∨ h.next ≤ r) := by
  unfold deepcopy1 at hrun
  split at hrun
  · rename_i h2 r2 heq
    simp only [Option.some.injEq, Prod.mk.injEq] at hrun
    obtain ⟨rfl, rfl⟩ := hrun
    obtain ⟨m, wf2, bd, f⟩ := deepcopyN_spec fuel [a] h _ _ heq hwf
    cases f with
    | cons hR hnil => exact ⟨m, wf2, bd _ (by simp), hR⟩
  · exact Option.noConfusion hrun

/-- Master lemma for the heap-level merge: the original cells are
untouched, the result is a fresh cell, and every fresh cell references
only fresh cells, old atoms, or sandbox-reachable cells. -/
theorem heap_merge_spec (fuel : Nat) (h : Heap) (project sandbox : Nat) (h' : Heap)
    (r : Nat) (hrun : heap_merge fuel h project sandbox = some (h', r))
    (hwf : h.wf) (hsb : sandbox < h.next)
    (hdk : ∀ sd a shFields, h.get sandbox = some (.dict sd) →
      dlookupA sd "hooks" = some a → h.get a = some (.dict shFields) →
      (shFields.map Prod.fst).Nodup) :
    LInv h sandbox h' ∧ h.next ≤ r := by
  unfold heap_merge at hrun
  split at hrun
  case _ pd sd heqp heqs =>
    split at hrun
    case _ => exact Option.noConfusion hrun
    case _ h1 result heqd =>
      obtain ⟨mstep, wf1, hresbd, hresd⟩ := deepcopy1_spec fuel h project h1 result heqd hwf
      have hresfresh : h.next ≤ result := by
        rcases hresd with ⟨tag, htag, _⟩ | hge
        · rw [heqp] at htag
          exact Node.noConfusion (Option.some.inj htag)
        · exact hge
      have inv1 : LInv h sandbox h1 := LInv.of_MStep h h1 sandbox mstep
      have hreach_sd : ∀ p2 ∈ sd, Reaches h sandbox p2.2 := by
        intro p2 hp2
        refine Reaches.step (Reaches.refl sandbox) heqs ?_
        simp only [Node.addrs]
        exact List.mem_map.mpr ⟨p2, hp2, rfl⟩
      cases heqh : dlookupA sd "hooks" with
      | none =>
        simp only [heqh] at hrun
        obtain ⟨inv2, hr2⟩ :=
          other_keys_heap_spec h sandbox sd h1 result h' r hrun hreach_sd inv1 hresfresh
        exact ⟨inv2, hr2 ▸ hresfresh⟩
      | some shAddr =>
        simp only [heqh] at hrun
        split at hrun
        case _ rd heqr =>
          have hshR : Reaches h sandbox shAddr := by
            refine Reaches.step (Reaches.refl sandbox) heqs ?_
            simp only [Node.addrs]
            exact dlookupA_snd_mem sd "hooks" shAddr heqh
          have hshLt : shAddr < h.next := reaches_lt h hwf sandbox shAddr hsb hshR
          by_cases hhp : (dlookupA rd "hooks").isSome
          · -- the fresh result cell already has a hooks entry
            simp only [hhp, if_true] at hrun
            obtain ⟨rhAddr, hrha⟩ := Option.isSome_iff_exists.mp hhp
            have hchild := mstep.2.2.2 result _ hresfresh heqr rhAddr
              (by simp only [Node.addrs]; exact dlookupA_snd_mem rd "hooks" rhAddr hrha)
            split at hrun
            case _ shFields heqsh =>
              have hshh : h.get shAddr = some (.dict shFields) := by
                rw [← inv1.2.1 shAddr hshLt]
                exact heqsh
              have hnd := hdk sd shAddr shFields heqs heqh hshh
              have hreach_sh : ∀ p2 ∈ shFields, Reaches h sandbox p2.2 := by
                intro p2 hp2
                refine Reaches.step hshR hshh ?_
                simp only [Node.addrs]
                exact List.mem_map.mpr ⟨p2, hp2, rfl⟩
              split at hrun
              case _ => exact Option.noConfusion hrun
              case _ h3 heql =>
                cases shFields with
                | nil =>
                  have h3eq : h1 = h3 := by
                    simpa [hooks_loop_heap] using heql
                  obtain ⟨inv2, hr2⟩ := other_keys_heap_spec h sandbox sd h3 result h' r
                    hrun hreach_sd (h3eq ▸ inv1) hresfresh
                  exact ⟨inv2, hr2 ▸ hresfresh⟩
                | cons q qs =>
                  obtain ⟨ev1, la1⟩ := q
                  have hrhd : ∃ rhd, h1.get rhAddr = some (.dict rhd) := by
                    unfold hooks_loop_heap at heql
                    simp only [heqr, hrha] at heql
                    cases hrr : h1.get rhAddr with
                    | none =>
                      simp only [hrr] at heql
                      exact Option.noConfusion heql
                    | some n =>
                      cases n with
                      | leaf t =>
                        simp only [hrr] at heql
                        exact Option.noConfusion heql
                      | arr es =>
                        simp only [hrr] at heql
                        exact Option.noConfusion heql
                      | dict rhd => exact ⟨rhd, rfl⟩
                  obtain ⟨rhd, hrr⟩ := hrhd
                  have hrhfresh : h.next ≤ rhAddr := by
                    by_cases hlt : rhAddr < h.next
                    · obtain ⟨tag, htag⟩ := hchild.2 hlt
                      exact absurd (hrr.symm.trans htag)
                        (fun he => Node.noConfusion (Option.some.inj he))
                    · omega
                  have hrhne : rhAddr ≠ result := by
                    have := hchild.1
                    omega
                  have hrhvals : ∀ e ∈ ((ev1, la1) :: qs).map Prod.fst, ∀ t,
                      dlookupA rhd e = some t →
                      h.next ≤ t ∨ ∃ tag, h.get t = some (.leaf tag) := by
                    intro e _ t ht
                    have hc := mstep.2.2.2 rhAddr _ hrhfresh hrr t
                      (by simp only [Node.addrs]; exact dlookupA_snd_mem rhd e t ht)
                    by_cases hlt : t < h.next
                    · obtain ⟨tag, htag⟩ := hc.2 hlt
                      rw [mstep.2.1 t hlt] at htag
                      exact Or.inr ⟨tag, htag⟩
                    · exact Or.inl (by omega)
                  have inv3 := hooks_loop_heap_spec h sandbox hwf hsb ((ev1, la1) :: qs)
                    h1 result rhAddr h3 heql hnd hreach_sh inv1 hresfresh hrhfresh hrhne
                    ⟨rd, heqr, hrha⟩ ⟨rhd, hrr, hrhvals⟩
                  obtain ⟨inv2, hr2⟩ := other_keys_heap_spec h sandbox sd h3 result h' r
                    hrun hreach_sd inv3 hresfresh
                  exact ⟨inv2, hr2 ▸ hresfresh⟩
            case _ => exact Option.noConfusion hrun
          · -- allocate the fresh empty hooks dict and rewrite the result cell
            rw [Bool.not_eq_true] at hhp
            simp only [hhp, Bool.false_eq_true, if_false] at hrun
            have hresA : result < h1.next := hresbd
            have hens_res : ((h1.alloc (.dict [])).1.set result
                (.dict (dsetA rd "hooks" (h1.alloc (.dict [])).2))).get result
                = some (.dict (dsetA rd "hooks" h1.next)) := by
              rw [Heap.get_set, if_pos rfl]
              rfl
            have hens_A : ((h1.alloc (.dict [])).1.set result
                (.dict (dsetA rd "hooks" (h1.alloc (.dict [])).2))).get h1.next
                = some (.dict []) := by
              rw [Heap.get_set, if_neg (by omega), Heap.get_alloc, if_pos rfl]
            have inv_ens : LInv h sandbox ((h1.alloc (.dict [])).1.set result
                (.dict (dsetA rd "hooks" (h1.alloc (.dict [])).2))) := by
              have inva : LInv h sandbox (h1.alloc (.dict [])).1 :=
                LInv.alloc h sandbox h1 inv1 _ (by intro c hc; simp [Node.addrs] at hc)
              refine LInv.set h sandbox _ inva result _ hresfresh ?_
              intro c hc
              simp only [Node.addrs] at hc
              rcases dsetA_snd_mem rd "hooks" (h1.alloc (.dict [])).2 c hc with hc | hc
              · exact inv1.2.2 result _ hresfresh heqr c (by simp only [Node.addrs]; exact hc)
              · have : (h1.alloc (.dict [])).2 = h1.next := rfl
                rw [this] at hc
                have hn1 : h.next ≤ h1.next := mstep.1
                exact Or.inl (by omega)
            have hens_sh : ((h1.alloc (.dict [])).1.set result
                (.dict (dsetA rd "hooks" (h1.alloc (.dict [])).2))).get shAddr
                = h.get shAddr := by
              rw [Heap.get_set, if_neg (by omega), Heap.get_alloc,
                if_neg (by have := mstep.1; omega)]
              exact inv1.2.1 shAddr hshLt
            split at hrun
            case _ shFields heqsh =>
              have hshh : h.get shAddr = some (.dict shFields) := by
                rw [← hens_sh]
                exact heqsh
              have hnd := hdk sd shAddr shFields heqs heqh hshh
              have hreach_sh : ∀ p2 ∈ shFields, Reaches h sandbox p2.2 := by
                intro p2 hp2
                refine Reaches.step hshR hshh ?_
                simp only [Node.addrs]
                exact List.mem_map.mpr ⟨p2, hp2, rfl⟩
              split at hrun
              case _ => exact Option.noConfusion hrun
              case _ h3 heql =>
                cases shFields with
                | nil =>
                  have h3eq : (h1.alloc (.dict [])).1.set result
                      (.dict (dsetA rd "hooks" (h1.alloc (.dict [])).2)) = h3 := by
                    simpa [hooks_loop_heap] using heql
                  obtain ⟨inv2, hr2⟩ := other_keys_heap_spec h sandbox sd h3 result h' r
                    hrun hreach_sd (h3eq ▸ inv_ens) hresfresh
                  exact ⟨inv2, hr2 ▸ hresfresh⟩
                | cons q qs =>
                  obtain ⟨ev1, la1⟩ := q
                  have hrhfresh : h.next ≤ h1.next := mstep.1
                  have inv3 := hooks_loop_heap_spec h sandbox hwf hsb ((ev1, la1) :: qs)
                    _ result h1.next h3 heql hnd hreach_sh inv_ens hresfresh hrhfresh
                    (by omega)
                    ⟨dsetA rd "hooks" h1.next, hens_res, by
                      rw [dlookupA_dsetA, if_pos rfl]⟩
                    ⟨[], hens_A, by intro e _ t ht; simp [dlookupA] at ht⟩
                  obtain ⟨inv2, hr2⟩ := other_keys_heap_spec h sandbox sd h3 result h' r
                    hrun hreach_sd inv3 hresfresh
                  exact ⟨inv2, hr2 ▸ hresfresh⟩
            case _ => exact Option.noConfusion hrun
        all_goals exact Option.noConfusion hrun
  case _ => exact Option.noConfusion hrun

theorem reaches_closed_children (h : Heap) (S : List Nat) (x : Nat) (hx : x ∈ S)
    (hcl : ∀ a ∈ S, ∀ c ∈ (match h.get a with | some n => n.addrs | none => []), c ∈ S) :
    ∀ a, Reaches h x a → a ∈ S := by
  intro a hr
  induction hr with
  | refl => exact hx
  | step hab hget hc ih =>
    apply hcl _ ih
    rw [hget]
    exact hc

/-- C10 amended: `merge_claude_settings` mutates neither argument — every
cell reachable from either input is unchanged — and, provided the project
and sandbox arguments share no mutable structure with each other (any
commonly reachable cell is an atom), the returned dict shares no mutable
structure with the project argument (any cell reachable from both the
result and the project is an atom; the result is built from a deep copy).
Without that proviso the sharing part fails (see the counterexample):
`result[key] = value` aliases sandbox values, which may themselves be
project structure. -/
theorem heap_merge_no_mutation (fuel : Nat) (h : Heap) (project sandbox : Nat)
    (h' : Heap) (r : Nat)
    (hrun : heap_merge fuel h project sandbox = some (h', r))
    (hwf : h.wf) (hp : project < h.next) (hsb : sandbox < h.next)
    (hdk : ∀ sd a shFields, h.get sandbox = some (.dict sd) →
      dlookupA sd "hooks" = some a → h.get a = some (.dict shFields) →
      (shFields.map Prod.fst).Nodup) :
    (∀ a, Reaches h project a → h'.get a = h.get a) ∧
    (∀ a, Reaches h sandbox a → h'.get a = h.get a) ∧
    ((∀ a, Reaches h project a → Reaches h sandbox a →
        ∃ tag, h.get a = some (.leaf tag)) →
      ∀ a, Reaches h' r a → Reaches h project a →
        ∃ tag, h.get a = some (.leaf tag)) := by
  obtain ⟨inv, hrf⟩ := heap_merge_spec fuel h project sandbox h' r hrun hwf hsb hdk
  have key : ∀ a, Reaches h' r a →
      h.next ≤ a ∨ (∃ tag, h.get a = some (.leaf tag)) ∨ Reaches h sandbox a := by
    intro a hra
    induction hra with
    | refl => exact Or.inl hrf
    | step hab hget hc ih =>
      rcases ih with hfresh | ⟨tag, htag⟩ | hreach
      · exact inv.2.2 _ _ hfresh hget _ hc
      · have hlt := (h.wf_get hwf _ _ htag).1
        rw [inv.2.1 _ hlt, htag] at hget
        obtain rfl := Option.some.inj hget
        simp [Node.addrs] at hc
      · have hlt := reaches_lt h hwf sandbox _ hsb hreach
        rw [inv.2.1 _ hlt] at hget
        exact Or.inr (Or.inr (Reaches.step hreach hget hc))
  refine ⟨?_, ?_, ?_⟩
  · intro a ha
    exact inv.2.1 a (reaches_lt h hwf project a hp ha)
  · intro a ha
    exact inv.2.1 a (reaches_lt h hwf sandbox a hsb ha)
  · intro hdisj a hra hpa
    rcases key a hra with hfresh | hleaf | hreach
    · have := reaches_lt h hwf project a hp hpa
      omega
    · exact hleaf
    · exact hdisj a hpa hreach

/-- A heap on which the project dict (address 2) and the sandbox dict
(address 3) share the list at address 1. -/
def cex_heap : Heap :=
  ⟨[(0, .leaf 7), (1, .arr [0]), (2, .dict [("a", 1)]), (3, .dict [("x", 1)])], 4⟩

/-- The heap produced by the merge on `cex_heap`. -/
def cex_result : Heap :=
  ⟨[(5, .dict [("a", 4), ("x", 1)]), (4, .arr [0]), (0, .leaf 7), (1, .arr [0]),
    (2, .dict [("a", 1)]), (3, .dict [("x", 1)])], 6⟩

/-- C10 counterexample: for project `{a: L}` and sandbox `{x: L}` sharing
the list `L` (address 1), the merge succeeds and its result still reaches
`L`, which the project also reaches and which is not an atom — the
returned dict does share mutable structure with the project argument, so
the unconditional claim is false. -/
theorem heap_merge_shares_with_project :
    heap_merge 10 cex_heap 2 3 = some (cex_result, 5) ∧
      Reaches cex_result 5 1 ∧ Reaches cex_heap 2 1 ∧
      ∀ tag, cex_heap.get 1 ≠ some (.leaf tag) := by
  refine ⟨by decide, ?_, ?_, ?_⟩
  · exact Reaches.step (Reaches.refl 5) rfl (by decide)
  · exact Reaches.step (Reaches.refl 2) rfl (by decide)
  · intro tag hcontra
    rw [show cex_heap.get 1 = some (Node.arr [0]) from rfl] at hcontra
    exact Node.noConfusion (Option.some.inj hcontra)

/-- A heap holding two fully disjoint settings dicts: project at address 3
(`{hooks: {PreToolUse: [atom]}}`), sandbox at address 7 (same shape). -/
def wit_heap : Heap :=
  ⟨[(0, .leaf 10), (1, .arr [0]), (2, .dict [("PreToolUse", 1)]), (3, .dict [("hooks", 2)]),
    (4, .leaf 11), (5, .arr [4]), (6, .dict [("PreToolUse", 5)]), (7, .dict [("hooks", 6)])],
    8⟩

/-- The heap produced by the merge on `wit_heap`. -/
def wit_result : Heap :=
  ⟨[(10, .dict [("hooks", 9)]), (9, .dict [("PreToolUse", 8)]), (8, .arr [0, 4]),
    (0, .leaf 10), (1, .arr [0]), (2, .dict [("PreToolUse", 1)]), (3, .dict [("hooks", 2)]),
    (4, .leaf 11), (5, .arr [4]), (6, .dict [("PreToolUse", 5)]), (7, .dict [("hooks", 6)])],
    11⟩

/-- Witness for C10's amended claim, at a concrete disjoint heap. -/
theorem heap_merge_no_mutation_witness :
    heap_merge 30 wit_heap 3 7 = some (wit_result, 10) ∧
      (∀ a, Reaches wit_heap 3 a → wit_result.get a = wit_heap.get a) ∧
      (∀ a, Reaches wit_heap 7 a → wit_result.get a = wit_heap.get a) ∧
      ((∀ a, Reaches wit_heap 3 a → Reaches wit_heap 7 a →
          ∃ tag, wit_heap.get a = some (.leaf tag)) →
        ∀ a, Reaches wit_result 10 a → Reaches wit_heap 3 a →
          ∃ tag, wit_heap.get a = some (.leaf tag)) := by
  have hdk : ∀ sd a shFields, wit_heap.get 7 = some (.dict sd) →
      dlookupA sd "hooks" = some a → wit_heap.get a = some (.dict shFields) →
      (shFields.map Prod.fst).Nodup := by
    intro sd a shFields h1 h2 h3
    rw [show wit_heap.get 7 = some (Node.dict [("hooks", 6)]) from rfl] at h1
    injection h1 with h1a
    injection h1a with h1b
    subst h1b
    have h2a : (6 : Nat) = a := by injection h2
    subst h2a
    rw [show wit_heap.get 6 = some (Node.dict [("PreToolUse", 5)]) from rfl] at h3
    injection h3 with h3a
    injection h3a with h3b
    subst h3b
    decide
  obtain ⟨c1, c2, c3⟩ := heap_merge_no_mutation 30 wit_heap 3 7 wit_result 10 (by decide)
    (by decide) (by decide) (by decide) hdk
  exact ⟨by decide, c1, c2, c3⟩

end SandboxCLI
